import Mathlib

/-!
Verification of the bit-level steganography codec of `image-hidden-message`
(files `src/buffer_modify.rs`, `src/header.rs`, `src/main.rs`).

The embedding models the Rust code shallowly:
* pixel buffers are `List Nat` of byte values;
* `u64` masks are `Nat` (only bits 0..63 are ever inspected);
* a Rust panic (slice index out of bounds, `data[0]` on an empty slice,
  `pop().unwrap()` on an empty stack, arithmetic overflow with checked
  arithmetic, division by zero, `gen_range` on an empty range) is modelled
  as `none` / an `Option` result;
* the unbounded `loop` in the codec advances one pixel per iteration, so it
  is modelled with a pixel-count fuel of `buf.length + 1`, which is never
  exhausted before the loop either returns or hits the out-of-bounds panic
  (each iteration needs `(idx+1)*stride ≤ buf.length` with `stride ≥ 3`).
-/

namespace HiddenMessage

/-- Supported color formats (`image::ColorType` values accepted by
`convert_dynamic_image_to_png_image`): 3-channel 8-bit and 4-channel 8-bit. -/
inductive ColorType
  | Rgb8
  | Rgba8
deriving DecidableEq, Repr

/-- `ColorType::channel_count` of the `image` crate for the supported formats. -/
def ColorType.channel_count : ColorType → Nat
  | .Rgb8 => 3
  | .Rgba8 => 4

/-- `ColorType::bytes_per_pixel` of the `image` crate for the supported formats. -/
def ColorType.bytes_per_pixel : ColorType → Nat
  | .Rgb8 => 3
  | .Rgba8 => 4

/-- `ColorType::bits_per_pixel` of the `image` crate for the supported formats. -/
def ColorType.bits_per_pixel : ColorType → Nat
  | .Rgb8 => 24
  | .Rgba8 => 32

/-- `create_offset_map` (buffer_modify.rs:253-262): offsets `i < pixel_size`
with bit `63 - i` of the mask set, in increasing order. -/
def create_offset_map (write_mask : Nat) (pixel_size : Nat) : List Nat :=
  (List.range pixel_size).filter (fun i => ((1 <<< 63) >>> i) &&& write_mask > 0)

/-- The in-byte mask `0b1u8 << 7 >> (off % 8)` used by both codec loops. -/
def mask8 (off : Nat) : Nat := (1 <<< 7) >>> (off % 8)

/-- The bit the codec reads at in-pixel offset `off` of the pixel whose first
byte sits at index `base`: `pixel_slice[off/8] & (0b1 << 7 >> off%8) != 0`. -/
def getBitB (buf : List Nat) (base off : Nat) : Bool :=
  (buf.getD (base + off / 8) 0) &&& mask8 off != 0

/-- The eight bits of a byte MSB-first, as pushed by the loop
`for i in 0..8 { push(byte & (0b1 << 7 >> i) != 0) }` in `write_to_buffer`.
(The Rust code then reverses this vector and pops from the back, which
consumes exactly this list front to back.) -/
def byteBits (b : Nat) : List Bool :=
  (List.range 8).map (fun i => b &&& ((1 <<< 7) >>> i) != 0)

/-- Byte reconstruction in `read_from_buffer`:
`for i in 0..8 { if bits[i] { byte |= 0b1 << 7 >> i } }`. -/
def byte_of_bits (bits : List Bool) : Nat :=
  (List.range 8).foldl (fun b i => if bits.getD i false then b ||| ((1 <<< 7) >>> i) else b) 0

/-- Inner `for in_pixel_offset in &offset_map` loop of `read_from_buffer`
(buffer_modify.rs:161-182) over one pixel whose slice starts at `base`.
`Sum.inl` carries the running `(current_byte_vec, return_data)` state to the
next pixel; `Sum.inr` is the early `return return_data`.  `none` models the
slice-index panic for an offset outside the pixel. -/
def read_pixel (buf : List Nat) (stride base target : Nat) :
    List Nat → List Bool → List Nat → Option ((List Bool × List Nat) ⊕ List Nat)
  | [], cur, out => some (Sum.inl (cur, out))
  | off :: rest, cur, out =>
    if off / 8 < stride then
      let cur2 := cur ++ [getBitB buf base off]
      if cur2.length = 8 then
        let out2 := out ++ [byte_of_bits cur2]
        if out2.length = target then some (Sum.inr out2)
        else read_pixel buf stride base target rest [] out2
      else read_pixel buf stride base target rest cur2 out
    else none

/-- Outer `loop` of `read_from_buffer` (buffer_modify.rs:157-184).  Each
iteration takes `get_pixel_slice` of pixel `idx`, which panics (`none`)
unless `(idx+1)*stride ≤ buf.length`.  The fuel counts pixel iterations and
is never exhausted when called with `buf.length + 1` (see module comment). -/
def read_go (buf : List Nat) (stride target : Nat) (offsets : List Nat) :
    Nat → Nat → List Bool → List Nat → Option (List Nat)
  | 0, _, _, _ => none
  | fuel + 1, idx, cur, out =>
    if (idx + 1) * stride ≤ buf.length then
      match read_pixel buf stride (idx * stride) target offsets cur out with
      | none => none
      | some (Sum.inr res) => some res
      | some (Sum.inl (cur2, out2)) =>
          read_go buf stride target offsets fuel (idx + 1) cur2 out2
    else none

/-- `read_from_buffer` (buffer_modify.rs:139-185).  `none` models a panic
(empty offset map, or reading past the end of the buffer). -/
def read_from_buffer (image_buf : List Nat) (pixels_offset_start bytes_len_read : Nat)
    (read_mask : Nat) (color_type : ColorType) : Option (List Nat) :=
  let offset_map := create_offset_map read_mask color_type.bits_per_pixel
  if offset_map.length = 0 then none
  else read_go image_buf color_type.bytes_per_pixel bytes_len_read offset_map
    (image_buf.length + 1) pixels_offset_start [] []

/-- The byte update of one `write_to_buffer` step (buffer_modify.rs:214-220):
clear the target bit with the inverted mask, then set it again if the data
bit is 1. -/
def writeByte (x : Nat) (b : Bool) (off : Nat) : Nat :=
  if b then (x &&& (255 ^^^ mask8 off)) ||| mask8 off else x &&& (255 ^^^ mask8 off)

/-- Inner `for in_pixel_offset in &offset_map` loop of `write_to_buffer`
(buffer_modify.rs:212-232) over one pixel whose slice starts at `base`.
The state is the bit stack `s` of the current input byte (front of the list
is the next bit written, i.e. the back of the reversed Rust vector) and the
input byte index `j`.  `Sum.inr` is the early `return`; `none` models a
panic (offset outside the pixel, or popping an empty stack). -/
def write_pixel (stride base : Nat) (data : List Nat) :
    List Nat → List Nat → List Bool → Nat →
    Option ((List Nat × List Bool × Nat) ⊕ List Nat)
  | [], buf, s, j => some (Sum.inl (buf, s, j))
  | off :: rest, buf, s, j =>
    if off / 8 < stride then
      match s with
      | [] => none
      | b :: s2 =>
        if s2.length = 0 then
          if data.length ≤ j + 1 then
            some (Sum.inr (buf.set (base + off / 8)
              (writeByte (buf.getD (base + off / 8) 0) b off)))
          else write_pixel stride base data rest
            (buf.set (base + off / 8) (writeByte (buf.getD (base + off / 8) 0) b off))
            (byteBits (data.getD (j + 1) 0)) (j + 1)
        else write_pixel stride base data rest
          (buf.set (base + off / 8) (writeByte (buf.getD (base + off / 8) 0) b off)) s2 j
    else none

/-- Outer `loop` of `write_to_buffer` (buffer_modify.rs:208-234), with the
same pixel-bound check and fuel convention as `read_go`. -/
def write_go (stride : Nat) (data offsets : List Nat) :
    Nat → Nat → List Nat → List Bool → Nat → Option (List Nat)
  | 0, _, _, _, _ => none
  | fuel + 1, idx, buf, s, j =>
    if (idx + 1) * stride ≤ buf.length then
      match write_pixel stride (idx * stride) data offsets buf s j with
      | none => none
      | some (Sum.inr buf2) => some buf2
      | some (Sum.inl (buf2, s2, j2)) =>
          write_go stride data offsets fuel (idx + 1) buf2 s2 j2
    else none

/-- `write_to_buffer` (buffer_modify.rs:187-235).  The function reads
`data_to_write[0]` before entering its loop, so an empty `data_to_write`
panics (`none`) before any write happens. -/
def write_to_buffer (image_buf : List Nat) (pixels_offset_start : Nat) (write_mask : Nat)
    (color_type : ColorType) (data_to_write : List Nat) : Option (List Nat) :=
  let offset_map := create_offset_map write_mask color_type.bits_per_pixel
  if offset_map.length = 0 then none
  else
    match data_to_write with
    | [] => none
    | b :: _ =>
        write_go color_type.bytes_per_pixel data_to_write offset_map
          (image_buf.length + 1) pixels_offset_start image_buf (byteBits b) 0

/-- Per-channel byte vector of `calculate_bit_mask` (header.rs:110-120): a
`bytes_per_channel`-byte vector whose last `cnt` of `bits_per_channel` bit
positions are set (`for i in clear_bits_count..bits_per_channel`). -/
def channel_mask_bytes (bits_per_channel bytes_per_channel cnt : Nat) : List Nat :=
  ((List.range bits_per_channel).drop (bits_per_channel - cnt)).foldl
    (fun v i => v.set (i / 8) ((v.getD (i / 8) 0) ||| mask8 i))
    (List.replicate bytes_per_channel 0)

/-- `calculate_bit_mask` (header.rs:89-129).  Each channel gets
`bits_needed_per_pixel / channel_count` data bits, the first
`bits_needed_per_pixel % channel_count` channels one extra; the
`while data_bits_per_channel.len() < channel_count` padding loop of the
source is a no-op because the vector already has `channel_count` entries.
The final loop packs byte `i` of the per-channel vectors into the `u64` as
`(byte as u64) << 56 >> (8*i)`. -/
def calculate_bit_mask (bits_needed_per_pixel : Nat) (color_type : ColorType) : Nat :=
  let C := color_type.channel_count
  let bit_count_on_all_channels := bits_needed_per_pixel / C
  let remainder := bits_needed_per_pixel % C
  let data_bits_per_channel :=
    (List.range C).map (fun i => bit_count_on_all_channels + if i < remainder then 1 else 0)
  let bits_per_channel := color_type.bits_per_pixel / C
  let bytes_per_channel := color_type.bytes_per_pixel / C
  let return_vec := data_bits_per_channel.foldl
    (fun acc cnt => acc ++ channel_mask_bytes bits_per_channel bytes_per_channel cnt) []
  (List.range return_vec.length).foldl
    (fun rd i => rd ||| ((return_vec.getD i 0) <<< 56 >>> (8 * i))) 0

/-- `v1_header_len` (header.rs:138):
`size_of::<u64>() * 2 + 4 + size_of::<u32>()` = 24. -/
def v1_header_len : Nat := 8 * 2 + 4 + 4

/-- `available_pixels = pixel_count - v1_header_len` (header.rs:139);
meaningful only when `v1_header_len ≤ pixel_count` (otherwise the `u64`
subtraction overflows and `generate_v1_header` is modelled as a panic). -/
def available_pixels (pixel_count : Nat) : Nat := pixel_count - v1_header_len

/-- `bits_needed_per_pixel = (1 + data_len*8 / available_pixels) as u8`
(header.rs:142); the `as u8` cast wraps modulo 256. -/
def bits_needed_per_pixel (pixel_count data_len_bytes : Nat) : Nat :=
  (1 + data_len_bytes * 8 / available_pixels pixel_count) % 256

/-- `pixels_needed_to_store_message` (header.rs:149). -/
def pixels_needed_to_store_message (pixel_count data_len_bytes : Nat) : Nat :=
  data_len_bytes * 8 / bits_needed_per_pixel pixel_count data_len_bytes + 1

/-- The planner's only explicit error: the capacity check of header.rs:145-147,
carrying the requested byte count and the available byte count it reports. -/
inductive PlanError
  | CapacityExceeded (requested_bytes available_bytes : Nat)
deriving DecidableEq, Repr

/-- `V1DataStuffingOptions` (header.rs:9-14). -/
inductive V1DataStuffingOptions
  | None (start_offset : Nat)
deriving DecidableEq, Repr

/-- `VersionedHeader` (header.rs:17-31). -/
inductive VersionedHeader
  | V1 (stuffing_opts : V1DataStuffingOptions) (data_mask : Nat) (data_len : Nat)
deriving DecidableEq, Repr

/-- `generate_v1_header` (header.rs:131-163).  `rng` injects the result of
`thread_rng().gen_range(0..k)` as `rng % k`.  `none` models the panics of
the source: `pixel_count - v1_header_len` underflow (checked arithmetic),
the division by `available_pixels = 0`, the division by a wrapped
`bits_needed_per_pixel = 0`, and `gen_range` on an empty or overflowing
range (`available_pixels ≤ pixels_needed`). -/
def generate_v1_header (pixel_count data_len_bytes : Nat) (color_type : ColorType)
    (rng : Nat) : Option (Except PlanError VersionedHeader) :=
  if pixel_count < v1_header_len then none
  else if available_pixels pixel_count = 0 then none
  else if color_type.bits_per_pixel < bits_needed_per_pixel pixel_count data_len_bytes then
    some (Except.error (PlanError.CapacityExceeded data_len_bytes
      (color_type.bytes_per_pixel * available_pixels pixel_count)))
  else if bits_needed_per_pixel pixel_count data_len_bytes = 0 then none
  else if available_pixels pixel_count ≤ pixels_needed_to_store_message pixel_count data_len_bytes
    then none
  else
    some (Except.ok (VersionedHeader.V1
      (V1DataStuffingOptions.None (v1_header_len + rng %
        (available_pixels pixel_count - pixels_needed_to_store_message pixel_count data_len_bytes)))
      (calculate_bit_mask (bits_needed_per_pixel pixel_count data_len_bytes) color_type)
      data_len_bytes))

instance {ε α : Type} [DecidableEq ε] [DecidableEq α] : DecidableEq (Except ε α) := fun x y =>
  match x, y with
  | Except.ok a, Except.ok b =>
      if h : a = b then isTrue (congrArg Except.ok h)
      else isFalse (fun he => h (Except.ok.inj he))
  | Except.error a, Except.error b =>
      if h : a = b then isTrue (congrArg Except.error h)
      else isFalse (fun he => h (Except.error.inj he))
  | Except.ok _, Except.error _ => isFalse (fun he => Except.noConfusion he)
  | Except.error _, Except.ok _ => isFalse (fun he => Except.noConfusion he)

/-- `HeaderRaw` (header.rs:34-42). -/
structure HeaderRaw where
  magic : Nat
  header_len : Nat
  data : List Nat
  crc : Nat
deriving DecidableEq, Repr

/-- The error kinds of `TryFrom<HeaderRaw> for VersionedHeader`
(header.rs:60-84); the source reports them as strings, the spec names them
`MagicMismatch`, `ChecksumMismatch` (carrying expected and found CRC) and
`DecodeMalformed`. -/
inductive HeaderError
  | MagicMismatch
  | ChecksumMismatch (expected found : Nat)
  | DecodeMalformed
deriving DecidableEq, Repr

/-- Generator polynomial of CRC-32/CKSUM. -/
def CRC32_CKSUM_POLY : Nat := 0x04C11DB7

/-- Modelled from the spec: one bit step of the CRC-32/CKSUM computation done
by the external `crc` crate (`Crc::<u32>::new(&CRC_32_CKSUM)`), MSB-first,
polynomial 0x04C11DB7, on a 32-bit state. -/
def crc_update_bit (state : Nat) (bit : Bool) : Nat :=
  if state.testBit 31 != bit then ((state <<< 1) % 4294967296) ^^^ CRC32_CKSUM_POLY
  else (state <<< 1) % 4294967296

/-- Folding `crc_update_bit` over a bit stream. -/
def crc_process (state : Nat) (bits : List Bool) : Nat := bits.foldl crc_update_bit state

/-- The MSB-first bit stream of a byte sequence. -/
def bits_of_bytes (data : List Nat) : List Bool := (data.map byteBits).flatten

/-- Modelled from the spec: CRC-32/CKSUM of a byte sequence as computed by
the external `crc` crate — initial value 0x00000000, no reflection, final
xor 0xFFFFFFFF (check value: 0x765E7680 on the bytes of `123456789`). -/
def crc32_cksum (data : List Nat) : Nat :=
  crc_process 0 (bits_of_bytes data) ^^^ 0xFFFFFFFF

/-- `TryFrom<HeaderRaw> for VersionedHeader` (header.rs:60-84).  The decoding
of the checksummed payload is done by the external `bincode` crate and is
abstracted as the `decode_payload` parameter; both error paths verified here
occur before it is consulted. -/
def try_from_header_raw (decode_payload : List Nat → Option VersionedHeader)
    (value : HeaderRaw) : Except HeaderError VersionedHeader :=
  if value.magic ≠ 0x42 then Except.error HeaderError.MagicMismatch
  else
    let crc := crc32_cksum value.data
    if crc ≠ value.crc then Except.error (HeaderError.ChecksumMismatch crc value.crc)
    else
      match decode_payload value.data with
      | some h => Except.ok h
      | none => Except.error HeaderError.DecodeMalformed

/-- The header byte serialization done inline in `main` (main.rs:121-138):
magic, big-endian `header_len`, payload bytes, big-endian CRC-32. -/
def header_binary_of_raw (h : HeaderRaw) : List Nat :=
  h.magic :: ((h.header_len >>> 8) &&& 255) :: (h.header_len &&& 255) ::
    (h.data ++ [(h.crc >>> 24) &&& 255, (h.crc >>> 16) &&& 255,
                (h.crc >>> 8) &&& 255, h.crc &&& 255])

/-- The mask `0b1u64 << 63 >> 7` used for the header write in main.rs:153. -/
def encode_header_write_mask : Nat := (1 <<< 63) >>> 7

/-- The two buffer writes of the encode path (main.rs:153-154): the header
bytes at pixel 0 with `encode_header_write_mask`, then the message at
`start_offset` with the planner's `data_mask`. -/
def encode_writes (buf : List Nat) (color_type : ColorType)
    (header_binary message : List Nat) (write_mask start_offset : Nat) : Option (List Nat) :=
  (write_to_buffer buf 0 encode_header_write_mask color_type header_binary).bind
    (fun b => write_to_buffer b start_offset write_mask color_type message)

/-- The set bits of `mask` falling in channel `c` (in-pixel offsets
`8*c .. 8*c+7`), used to state the mask-distribution property. -/
def channel_data_bits (mask : Nat) (c : Nat) : List Nat :=
  (List.range 8).filter (fun k => mask.testBit (63 - (8 * c + k)))

/-- Bit `t` of the MSB-first bit stream of `data` (proof infrastructure). -/
def dbit (data : List Nat) (t : Nat) : Bool :=
  (data.getD (t / 8) 0).testBit (7 - t % 8)

/-- The writer's bit stack after `t` bits of `data` have been consumed
(proof infrastructure). -/
def Sstate (data : List Nat) (t : Nat) : List Bool :=
  (byteBits (data.getD (t / 8) 0)).drop (t % 8)

/-- The reader's `current_byte_vec` after `t` bits have been read back
(proof infrastructure). -/
def Cstate (data : List Nat) (t : Nat) : List Bool :=
  (byteBits (data.getD (t / 8) 0)).take (t % 8)

/-- Ceiling division helper used in capacity statements. -/
def ceil_div (a b : Nat) : Nat := (a + (b - 1)) / b

/-- The buffer component of a `write_pixel` result (proof infrastructure). -/
def wp_buf : (List Nat × List Bool × Nat) ⊕ List Nat → List Nat
  | Sum.inl (b, _, _) => b
  | Sum.inr b => b

/-! ### Basic lemmas about the bit helpers -/

theorem mask8_eq (off : Nat) : mask8 off = 2 ^ (7 - off % 8) := by
  have h : off % 8 < 8 := Nat.mod_lt _ (by norm_num)
  unfold mask8
  generalize off % 8 = r at h ⊢
  interval_cases r <;> rfl

theorem and_shift_bne (x k : Nat) (hk : k < 8) :
    (x &&& ((1 <<< 7) >>> k) != 0) = x.testBit (7 - k) := by
  have hs : (1 <<< 7) >>> k = 2 ^ (7 - k) := by interval_cases k <;> rfl
  rw [hs, Nat.and_two_pow]
  rcases h : x.testBit (7 - k) <;> simp [h]

theorem getBitB_testBit (buf : List Nat) (base off : Nat) :
    getBitB buf base off = (buf.getD (base + off / 8) 0).testBit (7 - off % 8) := by
  unfold getBitB
  rw [mask8_eq]
  have h : off % 8 < 8 := Nat.mod_lt _ (by norm_num)
  have := and_shift_bne (buf.getD (base + off / 8) 0) (off % 8) h
  rw [← this]
  have hs : (1 <<< 7) >>> (off % 8) = 2 ^ (7 - off % 8) := by
    generalize off % 8 = r at h ⊢
    interval_cases r <;> rfl
  rw [hs]

theorem byteBits_length (b : Nat) : (byteBits b).length = 8 := by
  simp [byteBits]

theorem byteBits_getD (b k : Nat) (hk : k < 8) :
    (byteBits b).getD k false = b.testBit (7 - k) := by
  have : (byteBits b).getD k false = (b &&& ((1 <<< 7) >>> k) != 0) := by
    simp [byteBits, List.getD_eq_getElem?_getD, List.getElem?_map, List.getElem?_range, hk]
  rw [this, and_shift_bne _ _ hk]

set_option maxRecDepth 4096 in
theorem byte_of_bits_byteBits : ∀ b < 256, byte_of_bits (byteBits b) = b := by decide

/-! ### Claim C1 -/

/-- C1 (counterexample): the encode path (main.rs:153) writes the header with
the mask `0b1 << 63 >> 7`, whose offset map over the 24-bit Rgb8 pixel is the
single offset `[7]`, not the all-bits map `[0, …, 23]` the claim asserts. -/
theorem c1_counterexample :
    create_offset_map encode_header_write_mask (ColorType.bits_per_pixel ColorType.Rgb8) = [7] ∧
    [7] ≠ List.range (ColorType.bits_per_pixel ColorType.Rgb8) := by
  decide

/-- C1 (amended): on encode the serialized header bytes are written starting
at pixel 0 with the fixed single-bit mask `0b1 << 63 >> 7` — in-pixel bit
position 7 only (the least significant bit of the first channel byte), one
header bit per pixel — a constant known to the decoder independently of the
payload mask. -/
theorem c1_header_write_mask :
    ∀ (color_type : ColorType) (buf header_binary message : List Nat) (mask off : Nat),
      create_offset_map encode_header_write_mask color_type.bits_per_pixel = [7] ∧
      encode_writes buf color_type header_binary message mask off =
        (write_to_buffer buf 0 encode_header_write_mask color_type header_binary).bind
          (fun b => write_to_buffer b off mask color_type message) := by
  intro ct buf hb msg mask off
  exact ⟨by cases ct <;> decide, rfl⟩

/-! ### Claim C9 -/

/-- C9: `create_offset_map mask w` contains `i` iff `i < w` and bit `63 - i`
of the mask is set, its entries are strictly increasing, and on the example
mask `0x8421000000000001` over width 64 it returns `[0, 5, 10, 15, 63]`. -/
theorem c9_offset_map :
    (∀ mask w, mask < 2 ^ 64 → w ≤ 64 →
      ((∀ i, i ∈ create_offset_map mask w ↔ i < w ∧ mask.testBit (63 - i)) ∧
        List.Pairwise (· < ·) (create_offset_map mask w))) ∧
    create_offset_map 0x8421000000000001 64 = [0, 5, 10, 15, 63] := by
  refine ⟨fun mask w _ hw => ⟨fun i => ?_, ?_⟩, by decide⟩
  · simp only [create_offset_map, List.mem_filter, List.mem_range, decide_eq_true_eq]
    constructor
    · rintro ⟨hiw, hbit⟩
      refine ⟨hiw, ?_⟩
      have hi : i ≤ 63 := by omega
      have hs : (1 <<< 63) >>> i = 2 ^ (63 - i) := by
        rw [Nat.shiftLeft_eq, Nat.shiftRight_eq_div_pow, one_mul, Nat.pow_div hi (by norm_num)]
      rw [hs, Nat.two_pow_and] at hbit
      rcases h : mask.testBit (63 - i) with _ | _
      · rw [h] at hbit; simp at hbit
      · rfl
    · rintro ⟨hiw, hbit⟩
      refine ⟨hiw, ?_⟩
      have hi : i ≤ 63 := by omega
      have hs : (1 <<< 63) >>> i = 2 ^ (63 - i) := by
        rw [Nat.shiftLeft_eq, Nat.shiftRight_eq_div_pow, one_mul, Nat.pow_div hi (by norm_num)]
      rw [hs, Nat.two_pow_and, hbit]
      simp [Nat.pos_pow_of_pos]
  · exact List.Pairwise.sublist (List.filter_sublist _) (List.pairwise_lt_range w)

/-- C9 (witness): instantiating the membership characterization on the
example mask at offset 5. -/
theorem c9_offset_map_witness : 5 ∈ create_offset_map 0x8421000000000001 64 :=
  ((c9_offset_map.1 0x8421000000000001 64 (by norm_num) (by norm_num)).1 5).mpr
    ⟨by norm_num, by decide⟩

/-! ### Claim C8 -/

/-- C8: for every supported format and every data-bit count `n` within the
format's bits per pixel, `calculate_bit_mask` distributes the `n` data bits
over the channels so that the per-channel counts sum to `n`, channel `c`
gets `n / C` bits plus one extra iff `c < n % C`, and within each channel
the set bits are exactly the low-order bit positions of the channel. -/
theorem c8_mask_distribution :
    ∀ (color_type : ColorType) (n : Nat), n ≤ color_type.bits_per_pixel →
      (((List.range color_type.channel_count).map
          (fun c => (channel_data_bits (calculate_bit_mask n color_type) c).length)).sum = n) ∧
      (∀ c < color_type.channel_count,
        (channel_data_bits (calculate_bit_mask n color_type) c).length =
          n / color_type.channel_count +
            if c < n % color_type.channel_count then 1 else 0) ∧
      (∀ c < color_type.channel_count, ∀ k < 8,
        ((calculate_bit_mask n color_type).testBit (63 - (8 * c + k)) ↔
          8 - (channel_data_bits (calculate_bit_mask n color_type) c).length ≤ k)) := by
  intro ct n h
  cases ct <;>
    (simp only [ColorType.bits_per_pixel] at h; interval_cases n <;> decide)

/-- C8 (witness): 5 data bits on Rgba8 distribute as 2+1+1+1 over the four
channels, summing to 5. -/
theorem c8_mask_distribution_witness :
    ((List.range (ColorType.channel_count ColorType.Rgba8)).map
        (fun c => (channel_data_bits (calculate_bit_mask 5 ColorType.Rgba8) c).length)).sum = 5 :=
  (c8_mask_distribution ColorType.Rgba8 5 (by decide)).1

/-! ### Claim C5 -/

/-- C5 (counterexample): for pixel_count 48, payload 3 bytes, Rgb8 we have
`payload_len*8 = 24 = available_pixels`, so the claim asserts success with
`bits_per_pixel == 1`; the code computes `1 + 24/24 = 2` bits per pixel and
succeeds with a two-bit data mask. -/
theorem c5_counterexample :
    generate_v1_header 48 3 ColorType.Rgb8 0 =
      some (Except.ok (VersionedHeader.V1 (V1DataStuffingOptions.None 24)
        (calculate_bit_mask 2 ColorType.Rgb8) 3)) ∧
    (create_offset_map (calculate_bit_mask 2 ColorType.Rgb8) 64).length ≠ 1 := by
  decide

/-- C5 (amended): for `pixel_count > v1_header_len` (so `available_pixels ≥ 1`)
and a minimal bits-per-pixel value `1 + ⌊payload_len*8 / available_pixels⌋`
of at most 255 (no `as u8` wrap), the planner returns `CapacityExceeded` iff
that value exceeds the format's total bits per pixel, and when
`payload_len*8 + 1 < available_pixels` it succeeds with a one-bit-per-pixel
data mask. -/
theorem c5_capacity_boundary :
    ∀ (pixel_count data_len : Nat) (color_type : ColorType) (rng : Nat),
      v1_header_len < pixel_count →
      1 + data_len * 8 / available_pixels pixel_count ≤ 255 →
      ((∃ req avail, generate_v1_header pixel_count data_len color_type rng =
          some (Except.error (PlanError.CapacityExceeded req avail))) ↔
        color_type.bits_per_pixel < 1 + data_len * 8 / available_pixels pixel_count) ∧
      (data_len * 8 + 1 < available_pixels pixel_count →
        generate_v1_header pixel_count data_len color_type rng =
          some (Except.ok (VersionedHeader.V1
            (V1DataStuffingOptions.None
              (v1_header_len + rng % (available_pixels pixel_count - (data_len * 8 + 1))))
            (calculate_bit_mask 1 color_type) data_len)) ∧
        (create_offset_map (calculate_bit_mask 1 color_type) 64).length = 1) := by
  intro pc L ct rng hpc hB
  have hlt : ¬ pc < v1_header_len := by omega
  have hav : ¬ available_pixels pc = 0 := by unfold available_pixels; omega
  have hbits : bits_needed_per_pixel pc L = 1 + L * 8 / available_pixels pc := by
    unfold bits_needed_per_pixel
    exact Nat.mod_eq_of_lt (by omega)
  constructor
  · constructor
    · rintro ⟨req, avail, h⟩
      by_contra hc
      push_neg at hc
      unfold generate_v1_header at h
      rw [if_neg hlt, if_neg hav, hbits, if_neg (by omega)] at h
      split at h
      · exact Option.noConfusion h
      · split at h
        · exact Option.noConfusion h
        · exact Except.noConfusion (Option.some.inj h)
    · intro hc
      refine ⟨L, ct.bytes_per_pixel * available_pixels pc, ?_⟩
      unfold generate_v1_header
      rw [if_neg hlt, if_neg hav, hbits, if_pos hc]
  · intro hfits
    have h8 : L * 8 / available_pixels pc = 0 := Nat.div_eq_of_lt (by omega)
    have hbits1 : bits_needed_per_pixel pc L = 1 := by rw [hbits, h8]
    have hneeded : pixels_needed_to_store_message pc L = L * 8 + 1 := by
      unfold pixels_needed_to_store_message
      rw [hbits1, Nat.div_one]
    have hbpp : ¬ ct.bits_per_pixel < bits_needed_per_pixel pc L := by
      rw [hbits1]; cases ct <;> simp [ColorType.bits_per_pixel]
    refine ⟨?_, by cases ct <;> decide⟩
    unfold generate_v1_header
    rw [if_neg hlt, if_neg hav, if_neg hbpp, if_neg (by rw [hbits1]; omega), hneeded,
      if_neg (by omega), hbits1]

/-- C5 (witness): for a 600-pixel Rgb8 image and a 50-byte payload
(`400 + 1 < 576`) the planner succeeds with the one-bit mask. -/
theorem c5_capacity_boundary_witness :
    generate_v1_header 600 50 ColorType.Rgb8 3 =
      some (Except.ok (VersionedHeader.V1
        (V1DataStuffingOptions.None (v1_header_len + 3 % (available_pixels 600 - (50 * 8 + 1))))
        (calculate_bit_mask 1 ColorType.Rgb8) 50)) :=
  ((c5_capacity_boundary 600 50 ColorType.Rgb8 3 (by decide) (by decide)).2 (by decide)).1

/-! ### Claim C6 -/

/-- C6 (counterexample): for pixel_count 25, payload 0, Rgb8 the placement
range is empty (`available_pixels = 1 = pixels_needed`), and the planner
panics in `gen_range` (modelled `none`) instead of returning the
`CapacityExceeded` error the claim asserts. -/
theorem c6_counterexample :
    generate_v1_header 25 0 ColorType.Rgb8 0 = none ∧
    ∀ req avail, generate_v1_header 25 0 ColorType.Rgb8 0 ≠
      some (Except.error (PlanError.CapacityExceeded req avail)) := by
  refine ⟨by decide, fun req avail h => ?_⟩
  rw [show generate_v1_header 25 0 ColorType.Rgb8 0 = none from by decide] at h
  exact Option.noConfusion h

/-- C6 (amended): whenever the planner succeeds, the produced `start_offset`
lies in `[v1_header_len, v1_header_len + (available_pixels − pixels_needed))`;
when `available_pixels ≤ pixels_needed` (empty or negative range) the planner
panics — `gen_range` on an empty range, or overflow of the range subtraction —
modelled as `none`, rather than returning `CapacityExceeded`. -/
theorem c6_start_offset_range :
    (∀ (pixel_count data_len : Nat) (color_type : ColorType) (rng off mask dlen : Nat),
      generate_v1_header pixel_count data_len color_type rng =
          some (Except.ok (VersionedHeader.V1 (V1DataStuffingOptions.None off) mask dlen)) →
      v1_header_len ≤ off ∧
        off < v1_header_len +
          (available_pixels pixel_count - pixels_needed_to_store_message pixel_count data_len)) ∧
    (∀ (pixel_count data_len : Nat) (color_type : ColorType) (rng : Nat),
      available_pixels pixel_count ≤ pixels_needed_to_store_message pixel_count data_len →
      generate_v1_header pixel_count data_len color_type rng = none ∨
        ∃ req avail, generate_v1_header pixel_count data_len color_type rng =
          some (Except.error (PlanError.CapacityExceeded req avail))) := by
  constructor
  · intro pc L ct rng off mask dlen h
    unfold generate_v1_header at h
    split at h
    · exact Option.noConfusion h
    · split at h
      · exact Option.noConfusion h
      · split at h
        · exact Except.noConfusion (Option.some.inj h)
        · split at h
          · exact Option.noConfusion h
          · split at h
            · exact Option.noConfusion h
            · rename_i hrange
              simp only [Option.some.injEq, Except.ok.injEq, VersionedHeader.V1.injEq,
                V1DataStuffingOptions.None.injEq] at h
              obtain ⟨hoff, -, -⟩ := h
              have hk : 0 < available_pixels pc - pixels_needed_to_store_message pc L := by
                omega
              have hmod := Nat.mod_lt rng hk
              omega
  · intro pc L ct rng hrange
    unfold generate_v1_header
    by_cases h1 : pc < v1_header_len
    · rw [if_pos h1]; exact Or.inl rfl
    rw [if_neg h1]
    by_cases h2 : available_pixels pc = 0
    · rw [if_pos h2]; exact Or.inl rfl
    rw [if_neg h2]
    by_cases h3 : ColorType.bits_per_pixel ct < bits_needed_per_pixel pc L
    · rw [if_pos h3]; exact Or.inr ⟨_, _, rfl⟩
    rw [if_neg h3]
    by_cases h4 : bits_needed_per_pixel pc L = 0
    · rw [if_pos h4]; exact Or.inl rfl
    rw [if_neg h4, if_pos hrange]
    exact Or.inl rfl

/-- C6 (witness): a successful plan for 600 pixels, 100 bytes, Rgb8 with rng
draw 5 places the payload at offset 29, inside the required range. -/
theorem c6_start_offset_range_witness :
    v1_header_len ≤ 29 ∧
      29 < v1_header_len +
        (available_pixels 600 - pixels_needed_to_store_message 600 100) :=
  c6_start_offset_range.1 600 100 ColorType.Rgb8 5 29
    (calculate_bit_mask 2 ColorType.Rgb8) 100 (by decide)

/-! ### Claim C10 -/

/-- `write_to_buffer` on an empty payload: the source reads
`data_to_write[0]` before its loop, which panics. -/
theorem write_to_buffer_nil (buf : List Nat) (start mask : Nat) (ct : ColorType) :
    write_to_buffer buf start mask ct [] = none := by
  simp only [write_to_buffer, ite_self]

/-- C10: `write_to_buffer` requires a non-empty payload — on an empty payload
it panics on the unconditional `data_to_write[0]` read (modelled `none`)
instead of writing nothing; the capacity planner nevertheless accepts a
zero-length payload, and the encode path that passes the message through
unchecked therefore panics on an empty message. -/
theorem c10_empty_payload :
    (∀ (buf : List Nat) (start mask : Nat) (color_type : ColorType),
        write_to_buffer buf start mask color_type [] = none) ∧
    generate_v1_header 600 0 ColorType.Rgb8 0 =
      some (Except.ok (VersionedHeader.V1 (V1DataStuffingOptions.None v1_header_len)
        (calculate_bit_mask 1 ColorType.Rgb8) 0)) ∧
    (∀ (buf : List Nat) (color_type : ColorType) (header_binary : List Nat) (mask off : Nat),
        encode_writes buf color_type header_binary [] mask off = none) := by
  refine ⟨write_to_buffer_nil, by decide, ?_⟩
  intro buf ct hb mask off
  unfold encode_writes
  cases h : write_to_buffer buf 0 encode_header_write_mask ct hb with
  | none => rfl
  | some b => simp [h, write_to_buffer_nil]

/-! ### Claim C2 -/

/-- C2 (code bug, evaluated at the failing input): for a 200-pixel Rgb8 image
and a 20-byte payload the planner (rng draw 0) picks `start_offset = 24 =
v1_header_len`; but the header — 20 framed bytes for a 13-byte payload, the
bincode size for this header — is written one bit per pixel and occupies
pixels 0..159, far beyond the 24 reserved.  The header write sets the first
byte of pixel 24 to 1; running both encode writes (main.rs:153-154) resets it
to 0: the payload write overwrites header bits, so the two writes are not
disjoint and the embedded header is corrupted. -/
theorem c2_header_payload_overlap :
    generate_v1_header 200 20 ColorType.Rgb8 0 =
      some (Except.ok (VersionedHeader.V1 (V1DataStuffingOptions.None 24)
        (calculate_bit_mask 1 ColorType.Rgb8) 20)) ∧
    (header_binary_of_raw
        ⟨0x42, 13, List.replicate 13 255, crc32_cksum (List.replicate 13 255)⟩).length = 20 ∧
    (write_to_buffer (List.replicate 600 0) 0 encode_header_write_mask ColorType.Rgb8
        (header_binary_of_raw
          ⟨0x42, 13, List.replicate 13 255, crc32_cksum (List.replicate 13 255)⟩)).map
      (fun b => b.getD (24 * 3) 0) = some 1 ∧
    (encode_writes (List.replicate 600 0) ColorType.Rgb8
        (header_binary_of_raw
          ⟨0x42, 13, List.replicate 13 255, crc32_cksum (List.replicate 13 255)⟩)
        (List.replicate 20 0) (calculate_bit_mask 1 ColorType.Rgb8) 24).map
      (fun b => b.getD (24 * 3) 0) = some 0 := by
  set_option maxRecDepth 100000 in
  exact ⟨by decide, by decide, by decide, by decide⟩

/-! ### Claim C7: CRC-32/CKSUM integrity -/

theorem crc_update_bit_lt (st : Nat) (b : Bool) :
    crc_update_bit st b < 2 ^ 32 := by
  unfold crc_update_bit
  have hm : (st <<< 1) % 4294967296 < 2 ^ 32 :=
    Nat.mod_lt _ (by norm_num)
  split
  · exact Nat.xor_lt_two_pow hm (by norm_num [CRC32_CKSUM_POLY])
  · exact hm

theorem testBit31_eq_decide (a : Nat) (h : a < 2 ^ 32) :
    a.testBit 31 = decide (2 ^ 31 ≤ a) := by
  rw [Nat.testBit_to_div_mod, decide_eq_decide,
    show (2 : Nat) ^ 31 = 2147483648 from by norm_num]
  rw [show (2 : Nat) ^ 32 = 4294967296 from by norm_num] at h
  omega

theorem shift_mod_even (a : Nat) : (a <<< 1) % 4294967296 % 2 = 0 := by
  rw [Nat.shiftLeft_eq, pow_one]
  omega

theorem xor_poly_odd (x : Nat) (hx : x % 2 = 0) : (x ^^^ CRC32_CKSUM_POLY) % 2 = 1 := by
  have h0 : (x ^^^ CRC32_CKSUM_POLY).testBit 0 = true := by
    rw [Nat.testBit_xor]
    have hxb : x.testBit 0 = false := by
      rw [Nat.testBit_to_div_mod]
      simp [hx]
    have hpb : CRC32_CKSUM_POLY.testBit 0 = true := by decide
    simp [hxb, hpb]
  rw [Nat.testBit_to_div_mod] at h0
  simpa using h0

theorem crc_update_bit_inj (st1 st2 : Nat) (b : Bool) (h1 : st1 < 2 ^ 32) (h2 : st2 < 2 ^ 32)
    (he : crc_update_bit st1 b = crc_update_bit st2 b) : st1 = st2 := by
  unfold crc_update_bit at he
  by_cases m1 : st1.testBit 31 = st2.testBit 31
  · rw [m1] at he
    have hx : (st1 <<< 1) % 4294967296 = (st2 <<< 1) % 4294967296 := by
      by_cases hc : (st2.testBit 31 != b) = true
      · rw [if_pos hc, if_pos hc] at he
        have := congrArg (fun x => x ^^^ CRC32_CKSUM_POLY) he
        simpa [Nat.xor_assoc, Nat.xor_self, Nat.xor_zero] using this
      · rw [if_neg hc, if_neg hc] at he
        exact he
    rw [Nat.shiftLeft_eq, Nat.shiftLeft_eq, pow_one] at hx
    rw [testBit31_eq_decide st1 h1, testBit31_eq_decide st2 h2, decide_eq_decide] at m1
    omega
  · have hfb : (st1.testBit 31 != b) ≠ (st2.testBit 31 != b) := by
      cases b <;> cases hb1 : st1.testBit 31 <;> cases hb2 : st2.testBit 31 <;> simp_all
    cases hf1 : (st1.testBit 31 != b) <;> cases hf2 : (st2.testBit 31 != b) <;>
      rw [hf1, hf2] at he hfb
    · exact absurd rfl hfb
    · rw [if_neg (by simp), if_pos rfl] at he
      have he2 := xor_poly_odd _ (shift_mod_even st2)
      have he1 := shift_mod_even st1
      omega
    · rw [if_pos rfl, if_neg (by simp)] at he
      have he1 := xor_poly_odd _ (shift_mod_even st1)
      have he2 := shift_mod_even st2
      omega
    · exact absurd rfl hfb

theorem crc_process_lt (bits : List Bool) :
    ∀ st, st < 2 ^ 32 → crc_process st bits < 2 ^ 32 := by
  induction bits with
  | nil => intro st h; exact h
  | cons b rest ih =>
    intro st h
    exact ih _ (crc_update_bit_lt st b)

theorem crc_process_inj (bits : List Bool) :
    ∀ st1 st2, st1 < 2 ^ 32 → st2 < 2 ^ 32 → st1 ≠ st2 →
      crc_process st1 bits ≠ crc_process st2 bits := by
  induction bits with
  | nil => intro st1 st2 _ _ hne; exact hne
  | cons b rest ih =>
    intro st1 st2 h1 h2 hne
    exact ih _ _ (crc_update_bit_lt st1 b) (crc_update_bit_lt st2 b)
      (fun he => hne (crc_update_bit_inj st1 st2 b h1 h2 he))

theorem crc_update_bit_flip (st : Nat) (b : Bool) :
    crc_update_bit st b ≠ crc_update_bit st (!b) := by
  have ho := xor_poly_odd _ (shift_mod_even st)
  have hee := shift_mod_even st
  unfold crc_update_bit
  cases hb : st.testBit 31 <;> cases b <;>
    first
    | (rw [if_neg (by decide), if_pos (by decide)]; intro he; omega)
    | (rw [if_pos (by decide), if_neg (by decide)]; intro he; omega)

theorem crc_process_append (st : Nat) (l1 l2 : List Bool) :
    crc_process st (l1 ++ l2) = crc_process (crc_process st l1) l2 :=
  List.foldl_append crc_update_bit st l1 l2

theorem crc_process_diff (st : Nat) (hst : st < 2 ^ 32) (p s : List Bool) (x : Bool) :
    crc_process st (p ++ x :: s) ≠ crc_process st (p ++ (!x) :: s) := by
  rw [crc_process_append, crc_process_append]
  have hst2 : crc_process st p < 2 ^ 32 := crc_process_lt p st hst
  show crc_process (crc_update_bit (crc_process st p) x) s ≠
    crc_process (crc_update_bit (crc_process st p) (!x)) s
  exact crc_process_inj s _ _ (crc_update_bit_lt _ x) (crc_update_bit_lt _ (!x))
    (crc_update_bit_flip _ x)

theorem byteBits_flip (b e : Nat) (he : e < 8) :
    byteBits (b ^^^ 2 ^ e) = (byteBits b).set (7 - e) (!(byteBits b).getD (7 - e) false) := by
  refine List.ext_getElem (by simp [byteBits_length]) ?_
  intro n h1 h2
  have hn : n < 8 := by
    have := byteBits_length (b ^^^ 2 ^ e)
    omega
  rw [List.getElem_set]
  by_cases hne : 7 - e = n
  · rw [if_pos hne, byteBits_getD b (7 - e) (by omega), show 7 - (7 - e) = e from by omega]
    simp only [byteBits, List.getElem_map, List.getElem_range]
    rw [and_shift_bne _ _ hn, show 7 - n = e from by omega, Nat.testBit_xor,
      Nat.testBit_two_pow_self, Bool.xor_true]
  · rw [if_neg hne]
    simp only [byteBits, List.getElem_map, List.getElem_range]
    rw [and_shift_bne _ _ hn, and_shift_bne _ _ hn, Nat.testBit_xor,
      Nat.testBit_two_pow_of_ne (by omega), Bool.xor_false]

theorem bits_of_bytes_append (l1 l2 : List Nat) :
    bits_of_bytes (l1 ++ l2) = bits_of_bytes l1 ++ bits_of_bytes l2 := by
  unfold bits_of_bytes
  rw [List.map_append, List.flatten_append]

theorem list_split_at (l : List Bool) (j : Nat) (hj : j < l.length) :
    l = l.take j ++ l.getD j false :: l.drop (j + 1) := by
  conv_lhs => rw [← List.take_append_drop j l]
  rw [List.drop_eq_getElem_cons hj, List.getD_eq_getElem l false hj]

theorem list_set_split (l : List Bool) (j : Nat) (v : Bool) (hj : j < l.length) :
    l.set j v = l.take j ++ v :: l.drop (j + 1) := by
  rw [List.set_eq_take_append_cons_drop, if_pos hj]

theorem crc32_cksum_flip (data : List Nat) (i e : Nat) (hi : i < data.length) (he : e < 8) :
    crc32_cksum (data.set i ((data.getD i 0) ^^^ 2 ^ e)) ≠ crc32_cksum data := by
  have hmid : data.getD i 0 = data[i] := List.getD_eq_getElem data 0 hi
  have hdata : data = data.take i ++ data[i] :: data.drop (i + 1) := by
    conv_lhs => rw [← List.take_append_drop i data]
    rw [List.drop_eq_getElem_cons hi]
  have hset : data.set i (data.getD i 0 ^^^ 2 ^ e) =
      data.take i ++ (data[i] ^^^ 2 ^ e) :: data.drop (i + 1) := by
    rw [hmid, List.set_eq_take_append_cons_drop, if_pos hi]
  have hj : 7 - e < (byteBits (data[i])).length := by
    rw [byteBits_length]; omega
  have hbyte : byteBits data[i] =
      (byteBits data[i]).take (7 - e) ++
        ((byteBits data[i]).getD (7 - e) false) :: (byteBits data[i]).drop (7 - e + 1) :=
    list_split_at (byteBits data[i]) (7 - e) hj
  have hbyte2 : byteBits (data[i] ^^^ 2 ^ e) =
      (byteBits data[i]).take (7 - e) ++
        (!(byteBits data[i]).getD (7 - e) false) :: (byteBits data[i]).drop (7 - e + 1) := by
    rw [byteBits_flip _ e he]
    exact list_set_split (byteBits data[i]) (7 - e) _ hj
  unfold crc32_cksum
  intro hcon
  have hxor : crc_process 0 (bits_of_bytes (data.set i (data.getD i 0 ^^^ 2 ^ e))) =
      crc_process 0 (bits_of_bytes data) := by
    have := congrArg (fun x => x ^^^ 0xFFFFFFFF) hcon
    simpa [Nat.xor_assoc, Nat.xor_self, Nat.xor_zero] using this
  have hb1 : bits_of_bytes (data.set i (data.getD i 0 ^^^ 2 ^ e)) =
      (bits_of_bytes (data.take i) ++ (byteBits data[i]).take (7 - e)) ++
        (!(byteBits data[i]).getD (7 - e) false) ::
          ((byteBits data[i]).drop (7 - e + 1) ++ bits_of_bytes (data.drop (i + 1))) := by
    rw [hset, bits_of_bytes_append]
    have : bits_of_bytes ((data[i] ^^^ 2 ^ e) :: data.drop (i + 1)) =
        byteBits (data[i] ^^^ 2 ^ e) ++ bits_of_bytes (data.drop (i + 1)) := rfl
    rw [this, hbyte2]
    simp [List.append_assoc]
  have hb2 : bits_of_bytes data =
      (bits_of_bytes (data.take i) ++ (byteBits data[i]).take (7 - e)) ++
        ((byteBits data[i]).getD (7 - e) false) ::
          ((byteBits data[i]).drop (7 - e + 1) ++ bits_of_bytes (data.drop (i + 1))) := by
    conv_lhs => rw [hdata]
    rw [bits_of_bytes_append]
    have : bits_of_bytes (data[i] :: data.drop (i + 1)) =
        byteBits data[i] ++ bits_of_bytes (data.drop (i + 1)) := rfl
    rw [this]
    conv_lhs => rw [hbyte]
    simp [List.append_assoc]
  rw [hb1, hb2] at hxor
  exact crc_process_diff 0 (by norm_num)
    (bits_of_bytes (data.take i) ++ (byteBits data[i]).take (7 - e))
    ((byteBits data[i]).drop (7 - e + 1) ++ bits_of_bytes (data.drop (i + 1)))
    ((byteBits data[i]).getD (7 - e) false) hxor.symm

/-- C7: on a serialized header (magic 0x42, CRC over the payload bytes),
flipping any single bit of the payload makes deserialization fail with
`ChecksumMismatch` (carrying the recomputed and the stored CRC), and a
corrupted magic byte fails with `MagicMismatch` regardless of the payload
and CRC. -/
theorem c7_header_integrity :
    (∀ (decode_payload : List Nat → Option VersionedHeader) (data : List Nat) (i e : Nat),
      i < data.length → e < 8 →
      try_from_header_raw decode_payload
          ⟨0x42, data.length, data.set i ((data.getD i 0) ^^^ 2 ^ e), crc32_cksum data⟩ =
        Except.error (HeaderError.ChecksumMismatch
          (crc32_cksum (data.set i ((data.getD i 0) ^^^ 2 ^ e))) (crc32_cksum data))) ∧
    (∀ (decode_payload : List Nat → Option VersionedHeader) (value : HeaderRaw),
      value.magic ≠ 0x42 →
      try_from_header_raw decode_payload value = Except.error HeaderError.MagicMismatch) := by
  constructor
  · intro decode_payload data i e hi he
    unfold try_from_header_raw
    rw [if_neg (by simp)]
    rw [if_pos (crc32_cksum_flip data i e hi he)]
  · intro decode_payload value hmagic
    unfold try_from_header_raw
    rw [if_pos hmagic]

/-- C7 (witness): flipping bit 0 of byte 1 of the payload `[1, 2, 3]` is
detected as a checksum mismatch. -/
theorem c7_header_integrity_witness :
    try_from_header_raw (fun _ => none)
        ⟨0x42, 3, [1, 2, 3].set 1 (([1, 2, 3].getD 1 0) ^^^ 2 ^ 0), crc32_cksum [1, 2, 3]⟩ =
      Except.error (HeaderError.ChecksumMismatch
        (crc32_cksum ([1, 2, 3].set 1 (([1, 2, 3].getD 1 0) ^^^ 2 ^ 0))) (crc32_cksum [1, 2, 3])) :=
  c7_header_integrity.1 (fun _ => none) [1, 2, 3] 1 0 (by decide) (by decide)

/-! ### Codec helper lemmas: offset maps, byte writes, frame properties -/

theorem create_offset_map_lt (mask w : Nat) : ∀ o ∈ create_offset_map mask w, o < w := by
  intro o ho
  exact List.mem_range.mp (List.mem_filter.mp ho).1

theorem create_offset_map_nodup (mask w : Nat) : (create_offset_map mask w).Nodup :=
  (List.nodup_range w).filter _

theorem bits_per_pixel_eq (ct : ColorType) : ct.bits_per_pixel = 8 * ct.bytes_per_pixel := by
  cases ct <;> rfl

theorem bytes_per_pixel_pos (ct : ColorType) : 0 < ct.bytes_per_pixel := by
  cases ct <;> decide

theorem pixel_byte_ne (p1 p2 a c s : Nat) (ha : a < s) (hc : c < s) (hne : p1 ≠ p2) :
    p1 * s + a ≠ p2 * s + c := by
  intro h
  have hs : 0 < s := by omega
  have h1 : (p1 * s + a) / s = p1 := by
    rw [Nat.mul_comm, Nat.mul_add_div hs, Nat.div_eq_of_lt ha, Nat.add_zero]
  have h2 : (p2 * s + c) / s = p2 := by
    rw [Nat.mul_comm, Nat.mul_add_div hs, Nat.div_eq_of_lt hc, Nat.add_zero]
  rw [h] at h1
  exact hne (h1.symm.trans h2)

theorem getBitB_set_ne_byte (buf : List Nat) (p v base off : Nat) (h : base + off / 8 ≠ p) :
    getBitB (buf.set p v) base off = getBitB buf base off := by
  unfold getBitB
  rw [List.getD_eq_getElem?_getD, List.getElem?_set_ne (Ne.symm h),
    ← List.getD_eq_getElem?_getD]

theorem testBit_writeByte_other (x : Nat) (b : Bool) (off t : Nat) (ht : t < 8)
    (hne : t ≠ 7 - off % 8) :
    (writeByte x b off).testBit t = x.testBit t := by
  have h255 : ∀ u, u < 8 → Nat.testBit 255 u = true := by decide
  unfold writeByte
  rw [mask8_eq]
  cases b <;>
    simp [Nat.testBit_and, Nat.testBit_or, Nat.testBit_xor, h255 t ht,
      Nat.testBit_two_pow_of_ne (Ne.symm hne)]

theorem testBit_writeByte_self (x : Nat) (b : Bool) (off : Nat) :
    (writeByte x b off).testBit (7 - off % 8) = b := by
  have hm : off % 8 < 8 := Nat.mod_lt _ (by norm_num)
  have h255 : ∀ u, u < 8 → Nat.testBit 255 u = true := by decide
  unfold writeByte
  rw [mask8_eq]
  cases b <;>
    simp [Nat.testBit_and, Nat.testBit_or, Nat.testBit_xor, h255 (7 - off % 8) (by omega),
      Nat.testBit_two_pow_self]

theorem getBitB_set_write_self (buf : List Nat) (base off : Nat) (b : Bool)
    (hp : base + off / 8 < buf.length) :
    getBitB (buf.set (base + off / 8) (writeByte (buf.getD (base + off / 8) 0) b off))
      base off = b := by
  rw [getBitB_testBit, List.getD_eq_getElem?_getD, List.getElem?_set_self hp,
    Option.getD_some, testBit_writeByte_self]

theorem getBitB_writeByte_frame (buf : List Nat) (base off base2 off2 : Nat) (b : Bool)
    (hne : base2 + off2 / 8 ≠ base + off / 8 ∨ off2 % 8 ≠ off % 8) :
    getBitB (buf.set (base + off / 8) (writeByte (buf.getD (base + off / 8) 0) b off))
      base2 off2 = getBitB buf base2 off2 := by
  by_cases hb : base2 + off2 / 8 = base + off / 8
  · have hm : off2 % 8 ≠ off % 8 := by
      rcases hne with h | h
      · exact absurd hb h
      · exact h
    by_cases hp : base + off / 8 < buf.length
    · rw [getBitB_testBit, getBitB_testBit, hb, List.getD_eq_getElem?_getD,
        List.getElem?_set_self hp, Option.getD_some]
      have h1 : off2 % 8 < 8 := Nat.mod_lt _ (by norm_num)
      have h2 : off % 8 < 8 := Nat.mod_lt _ (by norm_num)
      exact testBit_writeByte_other _ b off _ (by omega) (by omega)
    · rw [List.set_eq_of_length_le (by omega)]
  · exact getBitB_set_ne_byte buf _ _ base2 off2 hb

theorem write_pixel_length (stride base : Nat) (data : List Nat) :
    ∀ (rest : List Nat) (buf : List Nat) (s : List Bool) (j : Nat) r,
      write_pixel stride base data rest buf s j = some r →
      (wp_buf r).length = buf.length := by
  intro rest
  induction rest with
  | nil =>
    intro buf s j r h
    simp only [write_pixel] at h
    cases h
    rfl
  | cons off rest ih =>
    intro buf s j r h
    simp only [write_pixel] at h
    by_cases hoff : off / 8 < stride
    · rw [if_pos hoff] at h
      match s with
      | [] => exact Option.noConfusion h
      | b :: s2 =>
        simp only at h
        by_cases h2 : s2.length = 0
        · rw [if_pos h2] at h
          by_cases h3 : data.length ≤ j + 1
          · rw [if_pos h3] at h
            cases h
            simp [wp_buf, List.length_set]
          · rw [if_neg h3] at h
            have := ih _ _ _ _ h
            rw [this, List.length_set]
        · rw [if_neg h2] at h
          have := ih _ _ _ _ h
          rw [this, List.length_set]
    · rw [if_neg hoff] at h
      exact Option.noConfusion h

theorem write_pixel_frame (stride : Nat) (idx : Nat) (data : List Nat) :
    ∀ (rest : List Nat) (buf : List Nat) (s : List Bool) (j : Nat) r,
      write_pixel stride (idx * stride) data rest buf s j = some r →
      (∀ o ∈ rest, o / 8 < stride) →
      ∀ pix2 off2, off2 / 8 < stride → (pix2 ≠ idx ∨ off2 ∉ rest) →
        getBitB (wp_buf r) (pix2 * stride) off2 = getBitB buf (pix2 * stride) off2 := by
  intro rest
  induction rest with
  | nil =>
    intro buf s j r h _ pix2 off2 _ _
    simp only [write_pixel] at h
    cases h
    rfl
  | cons off rest ih =>
    intro buf s j r h ho pix2 off2 hoff2 hsep
    have hoff : off / 8 < stride := ho off (List.mem_cons_self off rest)
    simp only [write_pixel, if_pos hoff] at h
    match s with
    | [] => exact Option.noConfusion h
    | b :: s2 =>
      simp only at h
      have hstep : getBitB (buf.set (idx * stride + off / 8)
          (writeByte (buf.getD (idx * stride + off / 8) 0) b off)) (pix2 * stride) off2 =
          getBitB buf (pix2 * stride) off2 := by
        apply getBitB_writeByte_frame
        by_cases hpix : pix2 = idx
        · subst hpix
          rcases hsep with hpix' | hmem
          · exact absurd rfl hpix'
          · have hne : off2 ≠ off := fun hh => hmem (hh ▸ List.mem_cons_self off rest)
            by_cases hbyte : off2 / 8 = off / 8
            · exact Or.inr (by omega)
            · exact Or.inl (by omega)
        · exact Or.inl (pixel_byte_ne pix2 idx (off2 / 8) (off / 8) stride hoff2 hoff hpix)
      have hsep2 : pix2 ≠ idx ∨ off2 ∉ rest := by
        rcases hsep with hpix | hmem
        · exact Or.inl hpix
        · exact Or.inr (fun hh => hmem (List.mem_cons_of_mem off hh))
      by_cases h2 : s2.length = 0
      · rw [if_pos h2] at h
        by_cases h3 : data.length ≤ j + 1
        · rw [if_pos h3] at h
          cases h
          exact hstep
        · rw [if_neg h3] at h
          rw [ih _ _ _ _ h (fun o hmo => ho o (List.mem_cons_of_mem off hmo)) pix2 off2
            hoff2 hsep2]
          exact hstep
      · rw [if_neg h2] at h
        rw [ih _ _ _ _ h (fun o hmo => ho o (List.mem_cons_of_mem off hmo)) pix2 off2
          hoff2 hsep2]
        exact hstep

theorem write_go_length (stride : Nat) (data offsets : List Nat) :
    ∀ (fuel idx : Nat) (buf : List Nat) (s : List Bool) (j : Nat) (buf2 : List Nat),
      write_go stride data offsets fuel idx buf s j = some buf2 →
      buf2.length = buf.length := by
  intro fuel
  induction fuel with
  | zero => intro idx buf s j buf2 h; exact Option.noConfusion h
  | succ fuel ih =>
    intro idx buf s j buf2 h
    simp only [write_go] at h
    by_cases hb : (idx + 1) * stride ≤ buf.length
    · rw [if_pos hb] at h
      cases hwp : write_pixel stride (idx * stride) data offsets buf s j with
      | none => rw [hwp] at h; exact Option.noConfusion h
      | some r =>
        rw [hwp] at h
        cases r with
        | inr bufr =>
          cases h
          exact write_pixel_length stride (idx * stride) data offsets buf s j _ hwp
        | inl st =>
          obtain ⟨bufc, sc, jc⟩ := st
          have hlen := write_pixel_length stride (idx * stride) data offsets buf s j _ hwp
          simp only at h
          rw [ih _ _ _ _ _ h]
          exact hlen
    · rw [if_neg hb] at h
      exact Option.noConfusion h

theorem write_go_frame (stride : Nat) (data offsets : List Nat)
    (ho : ∀ o ∈ offsets, o / 8 < stride) :
    ∀ (fuel idx : Nat) (buf : List Nat) (s : List Bool) (j : Nat) (buf2 : List Nat),
      write_go stride data offsets fuel idx buf s j = some buf2 →
      ∀ pix2 off2, off2 / 8 < stride → pix2 < idx →
        getBitB buf2 (pix2 * stride) off2 = getBitB buf (pix2 * stride) off2 := by
  intro fuel
  induction fuel with
  | zero => intro idx buf s j buf2 h; exact fun _ _ _ _ => Option.noConfusion h
  | succ fuel ih =>
    intro idx buf s j buf2 h pix2 off2 hoff2 hpix
    simp only [write_go] at h
    by_cases hb : (idx + 1) * stride ≤ buf.length
    · rw [if_pos hb] at h
      cases hwp : write_pixel stride (idx * stride) data offsets buf s j with
      | none => rw [hwp] at h; exact Option.noConfusion h
      | some r =>
        rw [hwp] at h
        cases r with
        | inr bufr =>
          cases h
          exact write_pixel_frame stride idx data offsets buf s j _ hwp ho pix2 off2 hoff2
            (Or.inl (by omega))
        | inl st =>
          obtain ⟨bufc, sc, jc⟩ := st
          simp only at h
          rw [ih _ _ _ _ _ h pix2 off2 hoff2 (by omega)]
          exact write_pixel_frame stride idx data offsets buf s j _ hwp ho pix2 off2 hoff2
            (Or.inl (by omega))
    · rw [if_neg hb] at h
      exact Option.noConfusion h

/-! ### Bit-stream state lemmas -/

theorem Sstate_head (data : List Nat) (t : Nat) :
    Sstate data t = dbit data t :: (byteBits (data.getD (t / 8) 0)).drop (t % 8 + 1) := by
  unfold Sstate dbit
  have hr : t % 8 < (byteBits (data.getD (t / 8) 0)).length := by
    rw [byteBits_length]
    exact Nat.mod_lt _ (by norm_num)
  rw [List.drop_eq_getElem_cons hr]
  congr 1
  rw [← List.getD_eq_getElem _ false hr, byteBits_getD _ _ (Nat.mod_lt _ (by norm_num))]

theorem Sstate_tail_length (data : List Nat) (t : Nat) :
    ((byteBits (data.getD (t / 8) 0)).drop (t % 8 + 1)).length = 7 - t % 8 := by
  rw [List.length_drop, byteBits_length]
  have := Nat.mod_lt t (y := 8) (by norm_num)
  omega

theorem Sstate_succ_same (data : List Nat) (t : Nat) (h : t % 8 < 7) :
    Sstate data (t + 1) = (byteBits (data.getD (t / 8) 0)).drop (t % 8 + 1) := by
  unfold Sstate
  have h1 : (t + 1) / 8 = t / 8 := by omega
  have h2 : (t + 1) % 8 = t % 8 + 1 := by omega
  rw [h1, h2]

theorem Sstate_succ_next (data : List Nat) (t : Nat) (h : t % 8 = 7) :
    Sstate data (t + 1) = byteBits (data.getD (t / 8 + 1) 0) := by
  unfold Sstate
  have h1 : (t + 1) / 8 = t / 8 + 1 := by omega
  have h2 : (t + 1) % 8 = 0 := by omega
  rw [h1, h2, List.drop_zero]

theorem Cstate_length (data : List Nat) (t : Nat) : (Cstate data t).length = t % 8 := by
  unfold Cstate
  rw [List.length_take, byteBits_length]
  have := Nat.mod_lt t (y := 8) (by norm_num)
  omega

theorem Cstate_snoc (data : List Nat) (t : Nat) :
    Cstate data t ++ [dbit data t] = (byteBits (data.getD (t / 8) 0)).take (t % 8 + 1) := by
  unfold Cstate dbit
  have hr : t % 8 < (byteBits (data.getD (t / 8) 0)).length := by
    rw [byteBits_length]
    exact Nat.mod_lt _ (by norm_num)
  rw [← List.take_concat_get _ _ hr, List.concat_eq_append]
  congr 2
  rw [← List.getD_eq_getElem _ false hr, byteBits_getD _ _ (Nat.mod_lt _ (by norm_num))]

theorem Cstate_succ_same (data : List Nat) (t : Nat) (h : t % 8 < 7) :
    Cstate data (t + 1) = (byteBits (data.getD (t / 8) 0)).take (t % 8 + 1) := by
  unfold Cstate
  have h1 : (t + 1) / 8 = t / 8 := by omega
  have h2 : (t + 1) % 8 = t % 8 + 1 := by omega
  rw [h1, h2]

theorem Cstate_succ_next (data : List Nat) (t : Nat) (h : t % 8 = 7) :
    Cstate data (t + 1) = [] := by
  unfold Cstate
  have h2 : (t + 1) % 8 = 0 := by omega
  rw [h2, List.take_zero]

theorem take_full_byte (data : List Nat) (t : Nat) (h : t % 8 = 7) :
    (byteBits (data.getD (t / 8) 0)).take (t % 8 + 1) = byteBits (data.getD (t / 8) 0) := by
  rw [h]
  exact List.take_of_length_le (by rw [byteBits_length])

theorem data_take_snoc (data : List Nat) (j : Nat) (hj : j < data.length) :
    data.take j ++ [data.getD j 0] = data.take (j + 1) := by
  rw [List.getD_eq_getElem data 0 hj, ← List.take_concat_get _ _ hj, List.concat_eq_append]

/-! ### Per-pixel write characterization -/

theorem write_sep_disj (stride idx pix2 off off2 : Nat) (hoff : off / 8 < stride)
    (hoff2 : off2 / 8 < stride) (hne : pix2 ≠ idx ∨ off2 ≠ off) :
    pix2 * stride + off2 / 8 ≠ idx * stride + off / 8 ∨ off2 % 8 ≠ off % 8 := by
  by_cases hpix : pix2 = idx
  · subst hpix
    rcases hne with hpix' | hne2
    · exact absurd rfl hpix'
    · by_cases hbyte : off2 / 8 = off / 8
      · exact Or.inr (by omega)
      · exact Or.inl (by omega)
  · exact Or.inl (pixel_byte_ne pix2 idx (off2 / 8) (off / 8) stride hoff2 hoff hpix)

theorem write_pixel_step (stride base : Nat) (data : List Nat) (off : Nat) (rest : List Nat)
    (buf : List Nat) (t : Nat) (hoff : off / 8 < stride) (_ht : t < 8 * data.length) :
    (t + 1 = 8 * data.length →
      write_pixel stride base data (off :: rest) buf (Sstate data t) (t / 8) =
        some (Sum.inr (buf.set (base + off / 8)
          (writeByte (buf.getD (base + off / 8) 0) (dbit data t) off)))) ∧
    (t + 1 < 8 * data.length →
      write_pixel stride base data (off :: rest) buf (Sstate data t) (t / 8) =
        write_pixel stride base data rest
          (buf.set (base + off / 8) (writeByte (buf.getD (base + off / 8) 0) (dbit data t) off))
          (Sstate data (t + 1)) ((t + 1) / 8)) := by
  rw [Sstate_head]
  have hs2 := Sstate_tail_length data t
  have hmod := Nat.mod_lt t (y := 8) (by norm_num)
  constructor
  · intro hend
    have h7 : t % 8 = 7 := by omega
    simp only [write_pixel, if_pos hoff]
    rw [if_pos (by omega : ((byteBits (data.getD (t / 8) 0)).drop (t % 8 + 1)).length = 0)]
    rw [if_pos (by omega : data.length ≤ t / 8 + 1)]
  · intro hlt
    by_cases h7 : t % 8 = 7
    · simp only [write_pixel, if_pos hoff]
      rw [if_pos (by omega : ((byteBits (data.getD (t / 8) 0)).drop (t % 8 + 1)).length = 0)]
      rw [if_neg (by omega : ¬ data.length ≤ t / 8 + 1)]
      rw [Sstate_succ_next data t h7, show (t + 1) / 8 = t / 8 + 1 from by omega]
    · simp only [write_pixel, if_pos hoff]
      rw [if_neg (by omega : ¬ ((byteBits (data.getD (t / 8) 0)).drop (t % 8 + 1)).length = 0)]
      rw [Sstate_succ_same data t (by omega), show (t + 1) / 8 = t / 8 from by omega]

theorem write_pixel_spec (stride idx : Nat) (data : List Nat) :
    ∀ (rest : List Nat) (buf : List Nat) (t : Nat),
      (idx + 1) * stride ≤ buf.length →
      (∀ o ∈ rest, o / 8 < stride) →
      rest.Nodup →
      t < 8 * data.length →
      ∃ buf2 : List Nat,
        buf2.length = buf.length ∧
        (∀ m, m < rest.length → t + m < 8 * data.length →
          getBitB buf2 (idx * stride) (rest.getD m 0) = dbit data (t + m)) ∧
        (∀ pix2 off2, off2 / 8 < stride → (pix2 ≠ idx ∨ off2 ∉ rest) →
          getBitB buf2 (pix2 * stride) off2 = getBitB buf (pix2 * stride) off2) ∧
        (if 8 * data.length ≤ t + rest.length
         then write_pixel stride (idx * stride) data rest buf (Sstate data t) (t / 8) =
           some (Sum.inr buf2)
         else write_pixel stride (idx * stride) data rest buf (Sstate data t) (t / 8) =
           some (Sum.inl (buf2, Sstate data (t + rest.length), (t + rest.length) / 8))) := by
  intro rest
  induction rest with
  | nil =>
    intro buf t _ _ _ ht
    refine ⟨buf, rfl, fun m hm _ => absurd hm (by simp), fun _ _ _ _ => rfl, ?_⟩
    rw [if_neg (by simp only [List.length_nil, Nat.add_zero]; omega)]
    simp [write_pixel]
  | cons off rest ih =>
    intro buf t hbound ho hnd ht
    have hoff : off / 8 < stride := ho off (List.mem_cons_self off rest)
    have hmul : (idx + 1) * stride = idx * stride + stride := by ring
    have hp : idx * stride + off / 8 < buf.length := by omega
    obtain ⟨hret, hcont⟩ := write_pixel_step stride (idx * stride) data off rest buf t hoff ht
    have hofftail : ∀ o ∈ rest, o / 8 < stride :=
      fun o hmo => ho o (List.mem_cons_of_mem off hmo)
    have hndtail : rest.Nodup := (List.nodup_cons.mp hnd).2
    have hnomem : off ∉ rest := (List.nodup_cons.mp hnd).1
    by_cases hend : t + 1 = 8 * data.length
    · refine ⟨buf.set (idx * stride + off / 8)
        (writeByte (buf.getD (idx * stride + off / 8) 0) (dbit data t) off), ?_, ?_, ?_, ?_⟩
      · rw [List.length_set]
      · intro m hm hmt
        have hm0 : m = 0 := by omega
        subst hm0
        rw [List.getD_cons_zero, Nat.add_zero]
        exact getBitB_set_write_self buf (idx * stride) off (dbit data t) hp
      · intro pix2 off2 hoff2 hsep
        apply getBitB_writeByte_frame
        apply write_sep_disj stride idx pix2 off off2 hoff hoff2
        rcases hsep with hpix | hmem
        · exact Or.inl hpix
        · exact Or.inr (fun hh => hmem (hh ▸ List.mem_cons_self off rest))
      · rw [if_pos (by simp only [List.length_cons]; omega)]
        exact hret hend
    · have hlt : t + 1 < 8 * data.length := by omega
      have hstep := hcont hlt
      obtain ⟨buf2, hlen, hwritten, hframe, hcond⟩ :=
        ih (buf.set (idx * stride + off / 8)
            (writeByte (buf.getD (idx * stride + off / 8) 0) (dbit data t) off))
          (t + 1) (by rw [List.length_set]; exact hbound) hofftail hndtail hlt
      have hstepbit : getBitB (buf.set (idx * stride + off / 8)
          (writeByte (buf.getD (idx * stride + off / 8) 0) (dbit data t) off))
          (idx * stride) off = dbit data t :=
        getBitB_set_write_self buf (idx * stride) off (dbit data t) hp
      refine ⟨buf2, by rw [hlen, List.length_set], ?_, ?_, ?_⟩
      · intro m hm hmt
        cases m with
        | zero =>
          rw [List.getD_cons_zero, Nat.add_zero]
          rw [hframe idx off hoff (Or.inr hnomem)]
          exact hstepbit
        | succ m =>
          rw [List.getD_cons_succ, show t + (m + 1) = t + 1 + m from by omega]
          exact hwritten m (by simpa using hm) (by omega)
      · intro pix2 off2 hoff2 hsep
        have hsep2 : pix2 ≠ idx ∨ off2 ∉ rest := by
          rcases hsep with hpix | hmem
          · exact Or.inl hpix
          · exact Or.inr (fun hh => hmem (List.mem_cons_of_mem off hh))
        rw [hframe pix2 off2 hoff2 hsep2]
        apply getBitB_writeByte_frame
        apply write_sep_disj stride idx pix2 off off2 hoff hoff2
        rcases hsep with hpix | hmem
        · exact Or.inl hpix
        · exact Or.inr (fun hh => hmem (hh ▸ List.mem_cons_self off rest))
      · rw [hstep]
        simp only [List.length_cons]
        rw [show t + (rest.length + 1) = t + 1 + rest.length from by omega]
        exact hcond

/-! ### Per-pixel read characterization -/

theorem read_pixel_step (buf : List Nat) (stride base : Nat) (data : List Nat) (off : Nat)
    (rest : List Nat) (t : Nat) (hoff : off / 8 < stride) (ht : t < 8 * data.length)
    (hbytes : ∀ b ∈ data, b < 256)
    (hbit : getBitB buf base off = dbit data t) :
    (t + 1 = 8 * data.length →
      read_pixel buf stride base data.length (off :: rest) (Cstate data t)
          (data.take (t / 8)) = some (Sum.inr data)) ∧
    (t + 1 < 8 * data.length →
      read_pixel buf stride base data.length (off :: rest) (Cstate data t)
          (data.take (t / 8)) =
        read_pixel buf stride base data.length rest (Cstate data (t + 1))
          (data.take ((t + 1) / 8))) := by
  have hmod := Nat.mod_lt t (y := 8) (by norm_num)
  have hj : t / 8 < data.length := by omega
  have hbyte : data.getD (t / 8) 0 < 256 := by
    rw [List.getD_eq_getElem data 0 hj]
    exact hbytes _ (List.getElem_mem hj)
  have hcur2 : Cstate data t ++ [getBitB buf base off] =
      (byteBits (data.getD (t / 8) 0)).take (t % 8 + 1) := by
    rw [hbit, Cstate_snoc]
  have hlen2 : ((byteBits (data.getD (t / 8) 0)).take (t % 8 + 1)).length = t % 8 + 1 := by
    rw [List.length_take, byteBits_length]
    omega
  constructor
  · intro hend
    have h7 : t % 8 = 7 := by omega
    simp only [read_pixel, if_pos hoff]
    rw [hcur2, if_pos (by rw [hlen2]; omega), take_full_byte data t h7,
      byte_of_bits_byteBits _ hbyte, data_take_snoc data (t / 8) hj,
      if_pos (by rw [List.length_take]; omega)]
    rw [show t / 8 + 1 = data.length from by omega, List.take_length]
  · intro hlt
    by_cases h7 : t % 8 = 7
    · simp only [read_pixel, if_pos hoff]
      rw [hcur2, if_pos (by rw [hlen2]; omega), take_full_byte data t h7,
        byte_of_bits_byteBits _ hbyte, data_take_snoc data (t / 8) hj,
        if_neg (by rw [List.length_take]; omega)]
      rw [Cstate_succ_next data t h7, show (t + 1) / 8 = t / 8 + 1 from by omega]
    · simp only [read_pixel, if_pos hoff]
      rw [hcur2, if_neg (by rw [hlen2]; omega)]
      rw [← Cstate_succ_same data t (by omega), show (t + 1) / 8 = t / 8 from by omega]

theorem read_pixel_spec (stride idx : Nat) (data : List Nat) (buf2 : List Nat)
    (hbytes : ∀ b ∈ data, b < 256) :
    ∀ (rest : List Nat) (t : Nat),
      (∀ o ∈ rest, o / 8 < stride) →
      t < 8 * data.length →
      (∀ m, m < rest.length → t + m < 8 * data.length →
        getBitB buf2 (idx * stride) (rest.getD m 0) = dbit data (t + m)) →
      (if 8 * data.length ≤ t + rest.length
       then read_pixel buf2 stride (idx * stride) data.length rest (Cstate data t)
           (data.take (t / 8)) = some (Sum.inr data)
       else read_pixel buf2 stride (idx * stride) data.length rest (Cstate data t)
           (data.take (t / 8)) =
         some (Sum.inl (Cstate data (t + rest.length), data.take ((t + rest.length) / 8)))) := by
  intro rest
  induction rest with
  | nil =>
    intro t _ ht _
    rw [if_neg (by simp only [List.length_nil, Nat.add_zero]; omega)]
    simp [read_pixel]
  | cons off rest ih =>
    intro t ho ht hbits
    have hoff : off / 8 < stride := ho off (List.mem_cons_self off rest)
    have hbit : getBitB buf2 (idx * stride) off = dbit data t := by
      have := hbits 0 (by simp) (by omega)
      simpa using this
    obtain ⟨hret, hcont⟩ :=
      read_pixel_step buf2 stride (idx * stride) data off rest t hoff ht hbytes hbit
    by_cases hend : t + 1 = 8 * data.length
    · rw [if_pos (by simp only [List.length_cons]; omega)]
      exact hret hend
    · have hlt : t + 1 < 8 * data.length := by omega
      rw [hcont hlt] at *
      have ihi := ih (t + 1) (fun o hmo => ho o (List.mem_cons_of_mem off hmo)) hlt
        (fun m hm hmt => by
          have := hbits (m + 1) (by simpa using hm) (by omega)
          rw [List.getD_cons_succ] at this
          rw [show t + 1 + m = t + (m + 1) from by omega]
          exact this)
      simp only [List.length_cons]
      rw [show t + (rest.length + 1) = t + 1 + rest.length from by omega]
      exact ihi

/-! ### Outer loop lockstep and success -/

theorem ceil_div_pos (a b : Nat) (ha : 0 < a) (hb : 0 < b) : 0 < ceil_div a b :=
  Nat.div_pos (by omega) hb

theorem ceil_div_sub (a b : Nat) (hb : 0 < b) (h : b < a) :
    ceil_div (a - b) b = ceil_div a b - 1 := by
  unfold ceil_div
  have h1 : a - b + (b - 1) = a - 1 := by omega
  have h2 : a + (b - 1) = (a - 1) + b := by omega
  rw [h1, h2, Nat.add_div_right _ hb, Nat.add_sub_cancel]

theorem write_read_go (stride : Nat) (data offsets : List Nat)
    (hbytes : ∀ b ∈ data, b < 256)
    (ho : ∀ o ∈ offsets, o / 8 < stride)
    (hnd : offsets.Nodup) :
    ∀ (fuel idx : Nat) (buf : List Nat) (t : Nat) (buf2 : List Nat),
      t < 8 * data.length →
      write_go stride data offsets fuel idx buf (Sstate data t) (t / 8) = some buf2 →
      read_go buf2 stride data.length offsets fuel idx (Cstate data t)
        (data.take (t / 8)) = some data := by
  intro fuel
  induction fuel with
  | zero => intro idx buf t buf2 _ h; exact Option.noConfusion h
  | succ fuel ih =>
    intro idx buf t buf2 ht h
    simp only [write_go] at h
    by_cases hb : (idx + 1) * stride ≤ buf.length
    · rw [if_pos hb] at h
      obtain ⟨bufp, hlen, hwritten, hframe, hcond⟩ :=
        write_pixel_spec stride idx data offsets buf t hb ho hnd ht
      have hlen2 : buf2.length = buf.length := by
        by_cases hdone : 8 * data.length ≤ t + offsets.length
        · rw [if_pos hdone] at hcond
          rw [hcond] at h
          simp only at h
          cases h
          exact hlen
        · rw [if_neg hdone] at hcond
          rw [hcond] at h
          simp only at h
          exact (write_go_length stride data offsets fuel (idx + 1) bufp _ _ buf2 h).trans hlen
      by_cases hdone : 8 * data.length ≤ t + offsets.length
      · rw [if_pos hdone] at hcond
        rw [hcond] at h
        simp only at h
        cases h
        have hrp := read_pixel_spec stride idx data buf2 hbytes offsets t ho ht hwritten
        rw [if_pos hdone] at hrp
        simp only [read_go, if_pos (hlen2 ▸ hb), hrp]
      · rw [if_neg hdone] at hcond
        rw [hcond] at h
        simp only at h
        have hbits2 : ∀ m, m < offsets.length → t + m < 8 * data.length →
            getBitB buf2 (idx * stride) (offsets.getD m 0) = dbit data (t + m) := by
          intro m hm hmt
          have hmem : offsets.getD m 0 ∈ offsets := by
            rw [List.getD_eq_getElem offsets 0 hm]
            exact List.getElem_mem hm
          rw [write_go_frame stride data offsets ho fuel (idx + 1) bufp _ _ buf2 h idx
            (offsets.getD m 0) (ho _ hmem) (by omega)]
          exact hwritten m hm hmt
        have hrp := read_pixel_spec stride idx data buf2 hbytes offsets t ho ht hbits2
        rw [if_neg hdone] at hrp
        have hread := ih (idx + 1) bufp (t + offsets.length) buf2 (by omega) h
        simp only [read_go, if_pos (hlen2 ▸ hb), hrp]
        exact hread
    · rw [if_neg hb] at h
      exact Option.noConfusion h

theorem write_go_some (stride : Nat) (data offsets : List Nat)
    (ho : ∀ o ∈ offsets, o / 8 < stride) (hnd : offsets.Nodup) (hn : 0 < offsets.length) :
    ∀ (fuel idx : Nat) (buf : List Nat) (t : Nat),
      t < 8 * data.length →
      (idx + ceil_div (8 * data.length - t) offsets.length) * stride ≤ buf.length →
      ceil_div (8 * data.length - t) offsets.length ≤ fuel →
      ∃ buf2, write_go stride data offsets fuel idx buf (Sstate data t) (t / 8) = some buf2 := by
  intro fuel
  induction fuel with
  | zero =>
    intro idx buf t ht _ hfuel
    have := ceil_div_pos (8 * data.length - t) offsets.length (by omega) hn
    omega
  | succ fuel ih =>
    intro idx buf t ht hbound hfuel
    have hceil : 0 < ceil_div (8 * data.length - t) offsets.length :=
      ceil_div_pos (8 * data.length - t) offsets.length (by omega) hn
    have hb : (idx + 1) * stride ≤ buf.length := by
      calc (idx + 1) * stride
          ≤ (idx + ceil_div (8 * data.length - t) offsets.length) * stride :=
            Nat.mul_le_mul_right stride (by omega)
        _ ≤ buf.length := hbound
    obtain ⟨bufp, hlen, hwritten, hframe, hcond⟩ :=
      write_pixel_spec stride idx data offsets buf t hb ho hnd ht
    by_cases hdone : 8 * data.length ≤ t + offsets.length
    · rw [if_pos hdone] at hcond
      exact ⟨bufp, by simp only [write_go, if_pos hb, hcond]⟩
    · rw [if_neg hdone] at hcond
      have hlt : t + offsets.length < 8 * data.length := by omega
      have hsub : 8 * data.length - (t + offsets.length) =
          (8 * data.length - t) - offsets.length := by omega
      have hceq : ceil_div (8 * data.length - (t + offsets.length)) offsets.length =
          ceil_div (8 * data.length - t) offsets.length - 1 := by
        rw [hsub]
        exact ceil_div_sub (8 * data.length - t) offsets.length hn (by omega)
      obtain ⟨buf2, hw⟩ := ih (idx + 1) bufp (t + offsets.length) hlt
        (by
          rw [hlen, hceq]
          calc (idx + 1 + (ceil_div (8 * data.length - t) offsets.length - 1)) * stride
              = (idx + ceil_div (8 * data.length - t) offsets.length) * stride := by
                congr 1
                omega
            _ ≤ buf.length := hbound)
        (by omega)
      exact ⟨buf2, by simp only [write_go, if_pos hb, hcond]; exact hw⟩

/-! ### Claim C3 -/

/-- C3: round-trip of the codec.  For every supported format, buffer, mask
with at least one set bit inside the pixel's bit width, start pixel, and
non-empty payload of bytes that fits in the remaining buffer (the last
touched pixel `start + ⌈8·len / m⌉ − 1` lies inside the buffer, `m` the
number of mask bits), writing with `write_to_buffer` and reading the same
number of bytes back with `read_from_buffer` at the same mask and start
pixel succeeds and returns exactly the original payload. -/
theorem c3_round_trip :
    ∀ (color_type : ColorType) (mask start : Nat) (data buf : List Nat),
      data ≠ [] →
      (∀ b ∈ data, b < 256) →
      create_offset_map mask color_type.bits_per_pixel ≠ [] →
      (start + ceil_div (8 * data.length)
          (create_offset_map mask color_type.bits_per_pixel).length) *
        color_type.bytes_per_pixel ≤ buf.length →
      ∃ buf2, write_to_buffer buf start mask color_type data = some buf2 ∧
        read_from_buffer buf2 start data.length mask color_type = some data := by
  intro ct mask start data buf hne hbytes hoffne hfit
  have ho : ∀ o ∈ create_offset_map mask ct.bits_per_pixel, o / 8 < ct.bytes_per_pixel := by
    intro o hmo
    have h1 := create_offset_map_lt mask ct.bits_per_pixel o hmo
    have h2 := bits_per_pixel_eq ct
    omega
  have hnd := create_offset_map_nodup mask ct.bits_per_pixel
  have hn : 0 < (create_offset_map mask ct.bits_per_pixel).length :=
    List.length_pos.mpr hoffne
  have hs := bytes_per_pixel_pos ct
  have hL : 0 < data.length := List.length_pos.mpr hne
  have hceil : ceil_div (8 * data.length) (create_offset_map mask ct.bits_per_pixel).length
      ≤ buf.length + 1 := by
    have h1 : start + ceil_div (8 * data.length)
          (create_offset_map mask ct.bits_per_pixel).length ≤
        (start + ceil_div (8 * data.length)
          (create_offset_map mask ct.bits_per_pixel).length) * ct.bytes_per_pixel :=
      Nat.le_mul_of_pos_right _ hs
    omega
  obtain ⟨buf2, hw⟩ := write_go_some ct.bytes_per_pixel data
    (create_offset_map mask ct.bits_per_pixel) ho hnd hn (buf.length + 1) start buf 0
    (by omega) (by rw [Nat.sub_zero]; exact hfit) (by rw [Nat.sub_zero]; exact hceil)
  have hlen2 : buf2.length = buf.length :=
    write_go_length ct.bytes_per_pixel data (create_offset_map mask ct.bits_per_pixel)
      (buf.length + 1) start buf _ _ buf2 hw
  have hread := write_read_go ct.bytes_per_pixel data
    (create_offset_map mask ct.bits_per_pixel) hbytes ho hnd (buf.length + 1) start buf 0 buf2
    (by omega) hw
  refine ⟨buf2, ?_, ?_⟩
  · cases data with
    | nil => exact absurd rfl hne
    | cons b data' =>
      simp only [write_to_buffer]
      rw [if_neg (by omega)]
      have hSb : Sstate (b :: data') 0 = byteBits b := by simp [Sstate]
      rw [← hSb]
      exact hw
  · simp only [read_from_buffer]
    rw [if_neg (by omega), hlen2]
    have hC : Cstate data 0 = [] := by simp [Cstate]
    have hT : ([] : List Nat) = data.take 0 := rfl
    rw [← hC, hT]
    exact hread

set_option maxRecDepth 4096 in
/-- C3 (witness): the codec test vector of the repository — 4 bytes written
with the three-low-bits mask on a 50-pixel Rgba8 buffer round-trip. -/
theorem c3_round_trip_witness :
    ∃ buf2, write_to_buffer (List.replicate 200 0) 0 0x0101010000000000 ColorType.Rgba8
        [0x12, 0x34, 0x56, 0x78] = some buf2 ∧
      read_from_buffer buf2 0 4 0x0101010000000000 ColorType.Rgba8 =
        some [0x12, 0x34, 0x56, 0x78] :=
  c3_round_trip ColorType.Rgba8 0x0101010000000000 0 [0x12, 0x34, 0x56, 0x78]
    (List.replicate 200 0) (by decide) (by decide) (by decide) (by decide)

/-! ### Claim C4: bounds discipline of the codec loops -/

theorem ceil_div_le_one (a b : Nat) (hb : 0 < b) (h : a ≤ b) : ceil_div a b ≤ 1 := by
  unfold ceil_div
  have : (a + (b - 1)) / b < 2 := by
    rw [Nat.div_lt_iff_lt_mul hb]
    omega
  omega

theorem ceil_div_add (a b : Nat) (hb : 0 < b) :
    ceil_div (a + b) b = ceil_div a b + 1 := by
  unfold ceil_div
  rw [show a + b + (b - 1) = (a + (b - 1)) + b from by omega, Nat.add_div_right _ hb]

theorem read_pixel_bound (buf : List Nat) (stride base target : Nat) :
    ∀ (rest : List Nat) (cur : List Bool) (out : List Nat),
      cur.length ≤ 7 → out.length < target →
      (∀ r, read_pixel buf stride base target rest cur out = some (Sum.inr r) →
        8 * (target - out.length) - cur.length ≤ rest.length) ∧
      (∀ cur2 out2,
        read_pixel buf stride base target rest cur out = some (Sum.inl (cur2, out2)) →
        cur2.length ≤ 7 ∧ out2.length < target ∧
        8 * (target - out2.length) - cur2.length + rest.length =
          8 * (target - out.length) - cur.length) := by
  intro rest
  induction rest with
  | nil =>
    intro cur out hcur hout
    constructor
    · intro r h
      simp only [read_pixel] at h
      exact Sum.noConfusion (Option.some.inj h)
    · intro cur2 out2 h
      simp only [read_pixel, Option.some.injEq, Sum.inl.injEq, Prod.mk.injEq] at h
      obtain ⟨h1, h2⟩ := h
      subst h1
      subst h2
      simp only [List.length_nil]
      omega
  | cons off rest ih =>
    intro cur out hcur hout
    by_cases hoff : off / 8 < stride
    · have hclen : (cur ++ [getBitB buf base off]).length = cur.length + 1 := by
        simp
      by_cases h8 : (cur ++ [getBitB buf base off]).length = 8
      · have holen : (out ++ [byte_of_bits (cur ++ [getBitB buf base off])]).length =
            out.length + 1 := by simp
        by_cases htgt : (out ++ [byte_of_bits (cur ++ [getBitB buf base off])]).length = target
        · have htgt2 : out.length + 1 = target := by rw [← holen]; exact htgt
          have h8b : cur.length + 1 = 8 := by rw [← hclen]; exact h8
          constructor
          · intro r h
            simp only [List.length_cons]
            omega
          · intro cur2 out2 h
            simp only [read_pixel, if_pos hoff, if_pos h8, if_pos htgt] at h
            exact Sum.noConfusion (Option.some.inj h)
        · have hout2 : (out ++ [byte_of_bits (cur ++ [getBitB buf base off])]).length <
              target := by omega
          obtain ⟨ihr, ihl⟩ := ih [] (out ++ [byte_of_bits (cur ++ [getBitB buf base off])])
            (by simp) hout2
          constructor
          · intro r h
            simp only [read_pixel, if_pos hoff, if_pos h8, if_neg htgt] at h
            have := ihr r h
            simp only [List.length_nil] at this
            simp only [List.length_cons]
            omega
          · intro cur2 out2 h
            simp only [read_pixel, if_pos hoff, if_pos h8, if_neg htgt] at h
            obtain ⟨ha, hb2, hc⟩ := ihl cur2 out2 h
            refine ⟨ha, hb2, ?_⟩
            simp only [List.length_nil] at hc
            simp only [List.length_cons]
            omega
      · obtain ⟨ihr, ihl⟩ := ih (cur ++ [getBitB buf base off]) out (by omega) hout
        constructor
        · intro r h
          simp only [read_pixel, if_pos hoff, if_neg h8] at h
          have := ihr r h
          simp only [List.length_cons]
          omega
        · intro cur2 out2 h
          simp only [read_pixel, if_pos hoff, if_neg h8] at h
          obtain ⟨ha, hb2, hc⟩ := ihl cur2 out2 h
          refine ⟨ha, hb2, ?_⟩
          simp only [List.length_cons]
          omega
    · constructor
      · intro r h
        simp only [read_pixel, if_neg hoff] at h
        exact Option.noConfusion h
      · intro cur2 out2 h
        simp only [read_pixel, if_neg hoff] at h
        exact Option.noConfusion h

theorem read_go_bound (buf : List Nat) (stride target : Nat) (offsets : List Nat)
    (hn : 0 < offsets.length) :
    ∀ (fuel idx : Nat) (cur : List Bool) (out : List Nat) (res : List Nat),
      cur.length ≤ 7 → out.length < target →
      read_go buf stride target offsets fuel idx cur out = some res →
      (idx + ceil_div (8 * (target - out.length) - cur.length) offsets.length) * stride ≤
        buf.length := by
  intro fuel
  induction fuel with
  | zero => intro idx cur out res _ _ h; exact Option.noConfusion h
  | succ fuel ih =>
    intro idx cur out res hcur hout h
    simp only [read_go] at h
    by_cases hb : (idx + 1) * stride ≤ buf.length
    · rw [if_pos hb] at h
      obtain ⟨bndr, bndl⟩ := read_pixel_bound buf stride (idx * stride) target offsets cur out
        hcur hout
      cases hrp : read_pixel buf stride (idx * stride) target offsets cur out with
      | none => rw [hrp] at h; exact Option.noConfusion h
      | some r =>
        rw [hrp] at h
        cases r with
        | inr rr =>
          simp only at h
          have hB := bndr rr hrp
          have hc1 : ceil_div (8 * (target - out.length) - cur.length) offsets.length ≤ 1 :=
            ceil_div_le_one _ _ hn hB
          calc (idx + ceil_div (8 * (target - out.length) - cur.length) offsets.length) *
                stride
              ≤ (idx + 1) * stride := Nat.mul_le_mul_right stride (by omega)
            _ ≤ buf.length := hb
        | inl st =>
          obtain ⟨cur2, out2⟩ := st
          simp only at h
          obtain ⟨ha, hb2, hc⟩ := bndl cur2 out2 hrp
          have ihb := ih (idx + 1) cur2 out2 res ha hb2 h
          have hceq : ceil_div (8 * (target - out.length) - cur.length) offsets.length =
              ceil_div (8 * (target - out2.length) - cur2.length) offsets.length + 1 := by
            rw [← hc]
            exact ceil_div_add _ _ hn
          rw [hceq, show idx + (ceil_div (8 * (target - out2.length) - cur2.length)
            offsets.length + 1) = idx + 1 + ceil_div (8 * (target - out2.length) - cur2.length)
            offsets.length from by omega]
          exact ihb
    · rw [if_neg hb] at h
      exact Option.noConfusion h

theorem write_pixel_bound (stride base : Nat) (data : List Nat) :
    ∀ (rest : List Nat) (buf : List Nat) (s : List Bool) (j : Nat),
      1 ≤ s.length → s.length ≤ 8 → j < data.length →
      (∀ bufr, write_pixel stride base data rest buf s j = some (Sum.inr bufr) →
        8 * (data.length - j) - (8 - s.length) ≤ rest.length) ∧
      (∀ bufc s2 j2,
        write_pixel stride base data rest buf s j = some (Sum.inl (bufc, s2, j2)) →
        1 ≤ s2.length ∧ s2.length ≤ 8 ∧ j2 < data.length ∧
        8 * (data.length - j2) - (8 - s2.length) + rest.length =
          8 * (data.length - j) - (8 - s.length)) := by
  intro rest
  induction rest with
  | nil =>
    intro buf s j hs1 hs8 hj
    constructor
    · intro bufr h
      simp only [write_pixel] at h
      exact Sum.noConfusion (Option.some.inj h)
    · intro bufc s2 j2 h
      simp only [write_pixel, Option.some.injEq, Sum.inl.injEq, Prod.mk.injEq] at h
      obtain ⟨h1, h2, h3⟩ := h
      subst h2
      subst h3
      simp only [List.length_nil]
      omega
  | cons off rest ih =>
    intro buf s j hs1 hs8 hj
    match s with
    | [] => simp at hs1
    | b :: stail =>
      by_cases hoff : off / 8 < stride
      · by_cases hzero : stail.length = 0
        · by_cases hend : data.length ≤ j + 1
          · constructor
            · intro bufr h
              simp only [List.length_cons]
              simp only [List.length_cons] at hs8
              omega
            · intro bufc s2 j2 h
              simp only [write_pixel, if_pos hoff, if_pos hzero, if_pos hend] at h
              exact Sum.noConfusion (Option.some.inj h)
          · obtain ⟨ihr, ihl⟩ := ih (buf.set (base + off / 8)
                (writeByte (buf.getD (base + off / 8) 0) b off))
              (byteBits (data.getD (j + 1) 0)) (j + 1)
              (by rw [byteBits_length]; omega) (by rw [byteBits_length]) (by omega)
            constructor
            · intro bufr h
              simp only [write_pixel, if_pos hoff, if_pos hzero, if_neg hend] at h
              have := ihr bufr h
              rw [byteBits_length] at this
              simp only [List.length_cons]
              simp only [List.length_cons] at hs8 hs1
              omega
            · intro bufc s2 j2 h
              simp only [write_pixel, if_pos hoff, if_pos hzero, if_neg hend] at h
              obtain ⟨ha, hb2, hc, hd⟩ := ihl bufc s2 j2 h
              refine ⟨ha, hb2, hc, ?_⟩
              rw [byteBits_length] at hd
              simp only [List.length_cons]
              simp only [List.length_cons] at hs8 hs1
              omega
        · obtain ⟨ihr, ihl⟩ := ih (buf.set (base + off / 8)
              (writeByte (buf.getD (base + off / 8) 0) b off)) stail j
            (by omega) (by simp only [List.length_cons] at hs8; omega) hj
          constructor
          · intro bufr h
            simp only [write_pixel, if_pos hoff, if_neg hzero] at h
            have := ihr bufr h
            simp only [List.length_cons]
            simp only [List.length_cons] at hs8
            omega
          · intro bufc s2 j2 h
            simp only [write_pixel, if_pos hoff, if_neg hzero] at h
            obtain ⟨ha, hb2, hc, hd⟩ := ihl bufc s2 j2 h
            refine ⟨ha, hb2, hc, ?_⟩
            simp only [List.length_cons]
            simp only [List.length_cons] at hs8
            omega
      · constructor
        · intro bufr h
          simp only [write_pixel, if_neg hoff] at h
          exact Option.noConfusion h
        · intro bufc s2 j2 h
          simp only [write_pixel, if_neg hoff] at h
          exact Option.noConfusion h

theorem write_go_bound (stride : Nat) (data offsets : List Nat) (hn : 0 < offsets.length) :
    ∀ (fuel idx : Nat) (buf : List Nat) (s : List Bool) (j : Nat) (buf2 : List Nat),
      1 ≤ s.length → s.length ≤ 8 → j < data.length →
      write_go stride data offsets fuel idx buf s j = some buf2 →
      (idx + ceil_div (8 * (data.length - j) - (8 - s.length)) offsets.length) * stride ≤
        buf.length := by
  intro fuel
  induction fuel with
  | zero => intro idx buf s j buf2 _ _ _ h; exact Option.noConfusion h
  | succ fuel ih =>
    intro idx buf s j buf2 hs1 hs8 hj h
    simp only [write_go] at h
    by_cases hb : (idx + 1) * stride ≤ buf.length
    · rw [if_pos hb] at h
      obtain ⟨bndr, bndl⟩ := write_pixel_bound stride (idx * stride) data offsets buf s j
        hs1 hs8 hj
      cases hwp : write_pixel stride (idx * stride) data offsets buf s j with
      | none => rw [hwp] at h; exact Option.noConfusion h
      | some r =>
        rw [hwp] at h
        cases r with
        | inr bufr =>
          have hB := bndr bufr hwp
          have hc1 : ceil_div (8 * (data.length - j) - (8 - s.length)) offsets.length ≤ 1 :=
            ceil_div_le_one _ _ hn hB
          calc (idx + ceil_div (8 * (data.length - j) - (8 - s.length)) offsets.length) *
                stride
              ≤ (idx + 1) * stride := Nat.mul_le_mul_right stride (by omega)
            _ ≤ buf.length := hb
        | inl st =>
          obtain ⟨bufc, s2, j2⟩ := st
          simp only at h
          obtain ⟨ha, hb2, hc, hd⟩ := bndl bufc s2 j2 hwp
          have hlenc : bufc.length = buf.length :=
            write_pixel_length stride (idx * stride) data offsets buf s j _ hwp
          have ihb := ih (idx + 1) bufc s2 j2 buf2 ha hb2 hc h
          rw [hlenc] at ihb
          have hceq : ceil_div (8 * (data.length - j) - (8 - s.length)) offsets.length =
              ceil_div (8 * (data.length - j2) - (8 - s2.length)) offsets.length + 1 := by
            rw [← hd]
            exact ceil_div_add _ _ hn
          rw [hceq, show idx + (ceil_div (8 * (data.length - j2) - (8 - s2.length))
            offsets.length + 1) = idx + 1 + ceil_div (8 * (data.length - j2) - (8 - s2.length))
            offsets.length from by omega]
          exact ihb
    · rw [if_neg hb] at h
      exact Option.noConfusion h

/-- C4 (counterexample): reading 2 bytes from a 2-byte Rgb8 buffer needs
pixel 0's slice `buf[0..3]`, which is out of bounds; the code panics
(modelled `none`) — there is no `BoundsExceeded` error value anywhere in the
codec, contrary to the claim. -/
theorem c4_counterexample :
    read_from_buffer (List.replicate 2 0) 0 2 0xFFFFFF0000000000 ColorType.Rgb8 = none := by
  decide

/-- C4 (amended): the codec routines never silently index out of bounds — a
value is returned only when every pixel the loop touches lies inside the
buffer (the whole range `[start, start + ⌈8·n / m⌉)` of pixels, `m` the
number of mask bits); a call whose range extends past the buffer end panics
(Rust slice-index panic, modelled `none`) rather than returning a
`BoundsExceeded` error value, which does not exist in the code. -/
theorem c4_bounds :
    (∀ (buf : List Nat) (start n mask : Nat) (color_type : ColorType) (out : List Nat),
      read_from_buffer buf start n mask color_type = some out → 1 ≤ n →
      (start + ceil_div (8 * n) (create_offset_map mask color_type.bits_per_pixel).length) *
        color_type.bytes_per_pixel ≤ buf.length) ∧
    (∀ (buf : List Nat) (start mask : Nat) (color_type : ColorType) (data buf2 : List Nat),
      write_to_buffer buf start mask color_type data = some buf2 →
      (start + ceil_div (8 * data.length)
          (create_offset_map mask color_type.bits_per_pixel).length) *
        color_type.bytes_per_pixel ≤ buf.length) := by
  constructor
  · intro buf start n mask ct out h hn1
    simp only [read_from_buffer] at h
    by_cases hz : (create_offset_map mask ct.bits_per_pixel).length = 0
    · rw [if_pos hz] at h
      exact Option.noConfusion h
    · rw [if_neg hz] at h
      have := read_go_bound buf ct.bytes_per_pixel n
        (create_offset_map mask ct.bits_per_pixel) (by omega) (buf.length + 1) start [] [] out
        (by simp) (by simp only [List.length_nil]; omega) h
      simpa using this
  · intro buf start mask ct data buf2 h
    simp only [write_to_buffer] at h
    by_cases hz : (create_offset_map mask ct.bits_per_pixel).length = 0
    · rw [if_pos hz] at h
      exact Option.noConfusion h
    · rw [if_neg hz] at h
      cases data with
      | nil => exact Option.noConfusion h
      | cons b data' =>
        have := write_go_bound ct.bytes_per_pixel (b :: data')
          (create_offset_map mask ct.bits_per_pixel) (by omega) (buf.length + 1) start buf
          (byteBits b) 0 buf2 (by rw [byteBits_length]; omega) (by rw [byteBits_length])
          (by simp) h
        rw [byteBits_length] at this
        simpa using this

/-- C4 (witness): a successful 1-byte read over the full 24-bit mask of a
one-pixel Rgb8 buffer satisfies the bound. -/
theorem c4_bounds_witness :
    (0 + ceil_div (8 * 1)
        (create_offset_map 0xFFFFFF0000000000 (ColorType.bits_per_pixel ColorType.Rgb8)).length) *
      ColorType.bytes_per_pixel ColorType.Rgb8 ≤ (List.replicate 3 0).length :=
  c4_bounds.1 (List.replicate 3 0) 0 1 0xFFFFFF0000000000 ColorType.Rgb8 [0]
    (by decide) (by decide)

end HiddenMessage
